import Mathlib

/-!
# grackleclub/htmx: the template pipeline of `template.go`

A shallow embedding of `parseContent`, `parseRecursive` and
`Assets.WriteTemplate` (package `template`) and of `writeTemplate` of the
packages `htmx` and `trash`, followed by the properties of the flattener, of
the strict containment check and of the three pipelines.

Conventions of the embedding:

* A Go value handed to `reflect.ValueOf` is a `Value`: the tree that the
  `switch val.Kind()` of `parseRecursive` walks.
* A run-time panic is an outcome of its own (`Result.panic`), distinct from a
  returned `error` (`Result.err`) and from a `nil` error (`Result.ok`).
* Go map iteration is unordered.  A `Value.map` lists its entries in the order
  `val.MapKeys()` yields them on the run at hand, and `WriteTemplate` takes the
  order of `for k, v := range content` as an argument; theorems quantify over
  every such order.
* Strings and buffers are sequences of characters; `strings.Contains` is
  contiguous containment.
* An error that comes from outside the package (from `text/template`, the
  filesystem, a function of the data, the writer) is a `Cause`: its message
  and the package sentinels in its chain, which `errors.Is` reaches through
  the `%w` of the site that wraps it.
* `slog` calls only log and are left out.
-/

namespace Template

/-! ## Data model -/

/-- Values that reach the `default` branch of `parseRecursive` and are stored
in the flat map.  `str` is a value whose dynamic type is `string` (the only one
for which `v.(string)` succeeds); `other` stands for every remaining kind
(floats, named string types, channels, functions, ...). -/
inductive Leaf where
  | str (s : String)
  | int (n : Int)
  | bool (b : Bool)
  | other (desc : String)
  deriving DecidableEq, Repr

/-- Whether a leaf has dynamic type `string`. -/
def Leaf.isStr : Leaf → Bool
  | .str _ => true
  | _ => false

/-- Go values as `reflect` sees them.
`nil` is the nil interface (`reflect.ValueOf(nil)`, kind `Invalid`),
`nilPtr` a typed nil pointer, `ptr` a non-nil pointer.
A struct field carries its name, whether it is exported, and its value.
A map entry carries the `%v` rendering of its key and its value. -/
inductive Value where
  | nil : Value
  | nilPtr : Value
  | ptr (elem : Value) : Value
  | struct (fields : List (String × Bool × Value)) : Value
  | map (entries : List (String × Value)) : Value
  | seq (elems : List Value) : Value
  | leaf (l : Leaf) : Value

/-- The package sentinels `ErrValidation` and `ErrMissingData`. -/
inductive Sentinel where
  | ErrValidation
  | ErrMissingData
  deriving DecidableEq, Repr

/-- An error value made outside the package (by `text/template`, by the
filesystem, by a method or function of the data that a template calls, or by
the writer): its message, and the package sentinels that `errors.Is` finds in
its chain. -/
structure Cause where
  msg : String
  wraps : List Sentinel
  deriving DecidableEq, Repr

/-- The value `io.ErrShortWrite`. -/
def ErrShortWrite : Cause := ⟨"short write", []⟩

/-- Errors returned by `WriteTemplate`, one constructor per `fmt.Errorf` site;
the sites of the parse, execute and write errors wrap their cause with `%w`. -/
inductive Error where
  | parseTemplate (cause : Cause)
  | executeTemplate (cause : Cause)
  | emptyOutput
  | strictParseContent (cause : Error)
  | missingKey (key : String)
  | writeTemplate (cause : Cause)
  deriving DecidableEq, Repr

/-- The function `errors.Is(err, target)` for a package sentinel as target:
`"key %q: %w: %w"` wraps both sentinels, every other `%w` site wraps its cause
and `errors.Is` follows it, and `"template output is empty"` wraps nothing. -/
def Error.Is : Error → Sentinel → Bool
  | .missingKey _, _ => true
  | .strictParseContent cause, target => cause.Is target
  | .parseTemplate cause, target => decide (target ∈ cause.wraps)
  | .executeTemplate cause, target => decide (target ∈ cause.wraps)
  | .emptyOutput, _ => false
  | .writeTemplate cause, target => decide (target ∈ cause.wraps)

/-- Outcome of a Go call that returns `(..., error)`. -/
inductive Result (α : Type) where
  | ok (a : α)
  | err (e : Error)
  | panic (msg : String)
  deriving DecidableEq, Repr

/-- The Go type `map[string]interface{}` holding leaves: an association list
in which `set` keeps keys unique. -/
abbrev FlatMap := List (String × Leaf)

/-- Assignment `result[k] = v`: overwrite the entry at `k` or add one. -/
def FlatMap.set : FlatMap → String → Leaf → FlatMap
  | [], k, v => [(k, v)]
  | (k0, v0) :: rest, k, v =>
    if k0 = k then (k, v) :: rest else (k0, v0) :: FlatMap.set rest k v

/-- Lookup `result[k]`. -/
def FlatMap.get? : FlatMap → String → Option Leaf
  | [], _ => none
  | (k0, v0) :: rest, k => if k0 = k then some v0 else FlatMap.get? rest k

/-- The keys of a flat map. -/
def FlatMap.keys (m : FlatMap) : List String := m.map Prod.fst

/-! ## The flattener -/

/-- Panic raised by `reflect.Value.Interface` on the zero `reflect.Value`. -/
def zeroValuePanic : String :=
  "reflect: call of reflect.Value.Interface on zero Value"

/-- Panic raised by `reflect.Value.Interface` on an unexported struct field. -/
def unexportedPanic : String :=
  "reflect.Value.Interface: cannot return value obtained from unexported field or method"

mutual
/-- The function `parseRecursive(data, prefix, result)` of `template.go`. -/
def parseRecursive : Value → String → FlatMap → Result FlatMap
  | .nil, _, _ => .panic zeroValuePanic
  | .nilPtr, _, _ => .panic zeroValuePanic
  | .ptr elem, pfx, result => parseRecursive elem pfx result
  | .struct fields, pfx, result => parseFields fields pfx result
  | .map entries, pfx, result => parseEntries entries pfx result
  | .seq elems, pfx, result => parseElems elems 0 pfx result
  | .leaf l, pfx, result => .ok (result.set pfx l)
/-- Loop over the fields of a struct, from field `i` on. -/
def parseFields : List (String × Bool × Value) → String → FlatMap → Result FlatMap
  | [], _, result => .ok result
  | (name, exported, fieldValue) :: rest, pfx, result =>
    if exported then
      match parseRecursive fieldValue ((pfx ++ name) ++ ".") result with
      | .ok r => parseFields rest pfx r
      | .err e => .err e
      | .panic msg => .panic msg
    else .panic unexportedPanic
/-- Loop over `val.MapKeys()`. -/
def parseEntries : List (String × Value) → String → FlatMap → Result FlatMap
  | [], _, result => .ok result
  | (key, mapValue) :: rest, pfx, result =>
    match parseRecursive mapValue ((pfx ++ key) ++ ".") result with
    | .ok r => parseEntries rest pfx r
    | .err e => .err e
    | .panic msg => .panic msg
/-- Loop over the elements of a slice or array, from index `i` on. -/
def parseElems : List Value → Nat → String → FlatMap → Result FlatMap
  | [], _, _, result => .ok result
  | elem :: rest, i, pfx, result =>
    match parseRecursive elem ((pfx ++ "[" ++ toString i ++ "]") ++ ".") result with
    | .ok r => parseElems rest (i + 1) pfx r
    | .err e => .err e
    | .panic msg => .panic msg
end

/-- The function `parseContent(data)` of `template.go`. -/
def parseContent (data : Value) : Result FlatMap :=
  match parseRecursive data "" [] with
  | .ok result => .ok result
  | .err e => .err e
  | .panic msg => .panic msg

/-! ## The strict check and the pipeline -/

/-- Whether `sub` is an initial segment of `s`. -/
def startsWith : List Char → List Char → Bool
  | _, [] => true
  | [], _ :: _ => false
  | c :: cs, d :: ds => c == d && startsWith cs ds

/-- Whether `sub` occurs in `s` at some offset. -/
def containsChars : List Char → List Char → Bool
  | [], sub => startsWith [] sub
  | c :: cs, sub => startsWith (c :: cs) sub || containsChars cs sub

/-- The function `strings.Contains(s, substr)`. -/
def stringsContains (s substr : String) : Bool :=
  containsChars s.data substr.data

/-- The loop `for k, v := range content` of `WriteTemplate`, run over the
entries in the order the iteration yields them. -/
def strictCheck : List (String × Leaf) → String → Result Unit
  | [], _ => .ok ()
  | (_, .int _) :: rest, buf => strictCheck rest buf
  | (_, .bool _) :: rest, buf => strictCheck rest buf
  | (_, .other _) :: rest, buf => strictCheck rest buf
  | (k, .str exptectedValue) :: rest, buf =>
    if stringsContains buf exptectedValue then strictCheck rest buf
    else .err (.missingKey k)

/-- An `io.Writer`: the bytes it has received so far, and what a call
`Write(p)` returns (bytes taken, error). -/
structure Writer where
  received : String
  Write : String → Nat × Option Cause

/-- A writer that takes every write in full and reports no error. -/
def Writer.acceptsAll (w : Writer) : Prop :=
  ∀ p : String, w.Write p = (p.length, none)

/-- A parsed template: `tmpl.Execute(&buf, data)` gives the buffer or fails. -/
abbrev Tmpl := Value → Except Cause String

/-- The receiver of `WriteTemplate`: `template.ParseFS(h.fs, paths...)`. -/
structure Assets where
  parseFS : List String → Except Cause Tmpl

/-- What a call of `WriteTemplate` leaves behind: what it returned and the
bytes the sink holds. -/
structure Run where
  result : Result Unit
  sink : String
  deriving DecidableEq, Repr

/-- The method `bytes.Buffer.WriteTo(w)` followed by the error wrapping of
`WriteTemplate`. -/
def writeTo (buf : String) (w : Writer) : Run :=
  if buf.length = 0 then ⟨.ok (), w.received⟩
  else
    match w.Write buf with
    | (m, e) =>
      let sink := w.received ++ String.mk (buf.data.take m)
      if buf.length < m then ⟨.panic "bytes.Buffer.WriteTo: invalid Write count", sink⟩
      else
        match e with
        | some cause => ⟨.err (.writeTemplate cause), sink⟩
        | none =>
          if m = buf.length then ⟨.ok (), sink⟩
          else ⟨.err (.writeTemplate ErrShortWrite), sink⟩

/-- The strict block of `WriteTemplate`: flatten `data`, then check every
entry against the buffer. -/
def strictStep (range : FlatMap → List (String × Leaf)) (data : Value)
    (buf : String) : Result Unit :=
  match parseContent data with
  | .err e => .err (.strictParseContent e)
  | .panic msg => .panic msg
  | .ok content => strictCheck (range content) buf

/-- The method `(h *Assets) WriteTemplate(w, templatePaths, data)`; `Strict` is
the package variable, `range` the order in which the flat map is iterated. -/
def WriteTemplate (Strict : Bool) (range : FlatMap → List (String × Leaf))
    (h : Assets) (w : Writer) (templatePaths : List String) (data : Value) : Run :=
  match h.parseFS templatePaths with
  | .error cause => ⟨.err (.parseTemplate cause), w.received⟩
  | .ok tmpl =>
    match tmpl data with
    | .error cause => ⟨.err (.executeTemplate cause), w.received⟩
    | .ok buf =>
      if buf.length = 0 then ⟨.err .emptyOutput, w.received⟩
      else
        match (if Strict then strictStep range data buf else .ok ()) with
        | .ok _ => writeTo buf w
        | .err e => ⟨.err e, w.received⟩
        | .panic msg => ⟨.panic msg, w.received⟩

/-! ## Values used in the examples -/

/-- The value `Year{Year: "2025", Title: "Hello, World!"}` of `TestWriteTemplate`. -/
def yearRecord : Value :=
  .struct [("Title", true, .leaf (.str "Hello, World!")), ("Year", true, .leaf (.str "2025"))]

/-- A flat record: a struct whose fields are all exported scalars, given by
field name and value in declaration order. -/
def flatRecord (fields : List (String × Leaf)) : Value :=
  .struct (fields.map fun f => (f.1, true, .leaf f.2))

/-- A sequence of two records, each with the single exported field `Field`. -/
def twoRecords (a b : Leaf) : Value :=
  .seq [.struct [("Field", true, .leaf a)], .struct [("Field", true, .leaf b)]]

/-- Assets whose templates parse and render `out` whatever the data. -/
def Assets.rendering (out : String) : Assets :=
  ⟨fun _ => .ok (fun _ => .ok out)⟩

/-- Assets whose templates parse and whose execution fails with `cause`. -/
def Assets.failing (cause : Cause) : Assets :=
  ⟨fun _ => .ok (fun _ => .error cause)⟩

/-- A record with a function-valued field, which a template can `call`. -/
def lookupRecord : Value :=
  .struct [("Title", true, .leaf (.str "Hello, World!")),
    ("Lookup", true, .leaf (.other "func() (string, error)"))]

/-- The error of `tmpl.Execute` when the function called by the template
returns an error that wraps `ErrMissingData`: the `ExecError` of
`text/template` unwraps to it. -/
def execMissingCause : Cause :=
  ⟨"template: index.html: error calling call: lookup: source data value not present",
    [.ErrMissingData]⟩

/-- A writer already holding `held` that takes every write in full. -/
def Writer.holding (held : String) : Writer :=
  ⟨held, fun p => (p.length, none)⟩

/-- A chain of `n` non-nil pointers ending at `v`. -/
def pointerTo : Nat → Value → Value
  | 0, v => v
  | n + 1, v => .ptr (pointerTo n v)

/-- A string-keyed map holding the entry "a.b" and, under "a", a map with the
entry "b", listed in the order `MapKeys` yields them. -/
def collidingMap (x y : Leaf) : Value :=
  .map [("a.b", .leaf x), ("a", .map [("b", .leaf y)])]

/-- The map of `collidingMap` with `MapKeys` yielding the keys the other way
round. -/
def collidingMapRev (x y : Leaf) : Value :=
  .map [("a", .map [("b", .leaf y)]), ("a.b", .leaf x)]

/-! ## The traversal, spelled out -/

mutual
/-- The assignments `result[prefix] = val.Interface()` of a traversal that
runs to its end, in the order they are made. -/
def leafWrites : Value → String → List (String × Leaf)
  | .nil, _ => []
  | .nilPtr, _ => []
  | .ptr elem, pfx => leafWrites elem pfx
  | .struct fields, pfx => fieldWrites fields pfx
  | .map entries, pfx => entryWrites entries pfx
  | .seq elems, pfx => elemWrites elems 0 pfx
  | .leaf l, pfx => [(pfx, l)]
/-- Assignments made under the fields of a struct. -/
def fieldWrites : List (String × Bool × Value) → String → List (String × Leaf)
  | [], _ => []
  | (name, _, fieldValue) :: rest, pfx =>
    leafWrites fieldValue ((pfx ++ name) ++ ".") ++ fieldWrites rest pfx
/-- Assignments made under the entries of a map. -/
def entryWrites : List (String × Value) → String → List (String × Leaf)
  | [], _ => []
  | (key, mapValue) :: rest, pfx =>
    leafWrites mapValue ((pfx ++ key) ++ ".") ++ entryWrites rest pfx
/-- Assignments made under the elements of a slice or array, from index `i`. -/
def elemWrites : List Value → Nat → String → List (String × Leaf)
  | [], _, _ => []
  | elem :: rest, i, pfx =>
    leafWrites elem ((pfx ++ "[" ++ toString i ++ "]") ++ ".") ++ elemWrites rest (i + 1) pfx
end

mutual
/-- The panic that stops the traversal of a value, if any: the first nil
interface, nil pointer or unexported field met in traversal order. -/
def firstPanic : Value → Option String
  | .nil => some zeroValuePanic
  | .nilPtr => some zeroValuePanic
  | .ptr elem => firstPanic elem
  | .struct fields => fieldsPanic fields
  | .map entries => entriesPanic entries
  | .seq elems => elemsPanic elems
  | .leaf _ => none
/-- First panic among the fields of a struct. -/
def fieldsPanic : List (String × Bool × Value) → Option String
  | [] => none
  | (_, exported, fieldValue) :: rest =>
    if exported then
      match firstPanic fieldValue with
      | some msg => some msg
      | none => fieldsPanic rest
    else some unexportedPanic
/-- First panic among the entries of a map. -/
def entriesPanic : List (String × Value) → Option String
  | [] => none
  | (_, mapValue) :: rest =>
    match firstPanic mapValue with
    | some msg => some msg
    | none => entriesPanic rest
/-- First panic among the elements of a slice or array. -/
def elemsPanic : List Value → Option String
  | [] => none
  | elem :: rest =>
    match firstPanic elem with
    | some msg => some msg
    | none => elemsPanic rest
end

/-- Replay of a list of assignments on a flat map. -/
def FlatMap.setAll (m : FlatMap) (writes : List (String × Leaf)) : FlatMap :=
  writes.foldl (fun acc kv => FlatMap.set acc kv.1 kv.2) m

/-- Outcome of a traversal: the panic that stopped it, or the flat map built. -/
def finish (stop : Option String) (built : FlatMap) : Result FlatMap :=
  match stop with
  | some msg => .panic msg
  | none => .ok built

mutual
/-- Number of scalar leaves of a value. -/
def leafCount : Value → Nat
  | .nil => 0
  | .nilPtr => 0
  | .ptr elem => leafCount elem
  | .struct fields => fieldsLeafCount fields
  | .map entries => entriesLeafCount entries
  | .seq elems => elemsLeafCount elems
  | .leaf _ => 1
/-- Number of scalar leaves under the fields of a struct. -/
def fieldsLeafCount : List (String × Bool × Value) → Nat
  | [] => 0
  | (_, _, fieldValue) :: rest => leafCount fieldValue + fieldsLeafCount rest
/-- Number of scalar leaves under the entries of a map. -/
def entriesLeafCount : List (String × Value) → Nat
  | [] => 0
  | (_, mapValue) :: rest => leafCount mapValue + entriesLeafCount rest
/-- Number of scalar leaves under the elements of a slice or array. -/
def elemsLeafCount : List Value → Nat
  | [] => 0
  | elem :: rest => leafCount elem + elemsLeafCount rest
end

mutual
/-- Values built only from scalars, records and ordered sequences, in which
the field names of each record are pairwise distinct and contain neither '.'
nor '['. -/
def mapFree : Value → Bool
  | .struct fields => fieldsMapFree fields
  | .seq elems => elemsMapFree elems
  | .leaf _ => true
  | .nil => false
  | .nilPtr => false
  | .ptr _ => false
  | .map _ => false
/-- The fields of a map-free record. -/
def fieldsMapFree : List (String × Bool × Value) → Bool
  | [] => true
  | (name, _, fieldValue) :: rest =>
    decide ('.' ∉ name.data) && decide ('[' ∉ name.data)
      && decide (name ∉ rest.map Prod.fst)
      && mapFree fieldValue && fieldsMapFree rest
/-- The elements of a map-free sequence. -/
def elemsMapFree : List Value → Bool
  | [] => true
  | elem :: rest => mapFree elem && elemsMapFree rest
end

mutual
/-- Whether every struct field met in a value is exported. -/
def exportedOnly : Value → Bool
  | .ptr elem => exportedOnly elem
  | .struct fields => fieldsExported fields
  | .map entries => entriesExported entries
  | .seq elems => elemsExported elems
  | .nil => true
  | .nilPtr => true
  | .leaf _ => true
/-- Whether the fields of a struct, and all below them, are exported. -/
def fieldsExported : List (String × Bool × Value) → Bool
  | [] => true
  | (_, exported, fieldValue) :: rest =>
    exported && exportedOnly fieldValue && fieldsExported rest
/-- Whether all struct fields below the entries of a map are exported. -/
def entriesExported : List (String × Value) → Bool
  | [] => true
  | (_, mapValue) :: rest => exportedOnly mapValue && entriesExported rest
/-- Whether all struct fields below the elements of a sequence are exported. -/
def elemsExported : List Value → Bool
  | [] => true
  | elem :: rest => exportedOnly elem && elemsExported rest
end

/-- A record with a scalar field and a field holding a sequence of two
scalars. -/
def taggedRecord : Value :=
  .struct [("Title", true, .leaf (.str "Hello")),
    ("Tags", true, .seq [.leaf (.str "a"), .leaf (.str "b")])]

/-- Whether the value at hand, once its pointers are followed, is a scalar. -/
def derefsToLeaf : Value → Bool
  | .ptr elem => derefsToLeaf elem
  | .leaf _ => true
  | _ => false

/-- The path segment of index `i`: the characters of "[i]". -/
def indexSegment (i : Nat) : List Char :=
  '[' :: (Nat.toDigits 10 i ++ [']'])

/-- Whether a string ends with the separator '.'. -/
def endsWithDot (k : String) : Bool :=
  k.data.getLast? == some '.'

/-- The method `bytes.Buffer.WriteTo(w)`: whether it returned a nil error, an
error or panicked, and the bytes the sink holds afterwards. -/
inductive WriteToResult where
  | done
  | failed (cause : Cause)
  | panic (msg : String)
  deriving DecidableEq, Repr

/-- The method `bytes.Buffer.WriteTo(w)` on a buffer holding `buf`. -/
def bufferWriteTo (buf : String) (w : Writer) : WriteToResult × String :=
  if buf.length = 0 then (.done, w.received)
  else
    match w.Write buf with
    | (m, e) =>
      let sink := w.received ++ String.mk (buf.data.take m)
      if buf.length < m then (.panic "bytes.Buffer.WriteTo: invalid Write count", sink)
      else
        match e with
        | some cause => (.failed cause, sink)
        | none => if m = buf.length then (.done, sink) else (.failed ErrShortWrite, sink)

end Template

/-! ## Package `htmx` -/

namespace Htmx

open Template

/-- Errors returned by `writeTemplate` of `htmx.go`, one per `fmt.Errorf`. -/
inductive Error where
  | parseTemplate (cause : Cause)
  | executeTemplate (cause : Cause)
  | emptyOutput
  | writeTemplate (cause : Cause)
  deriving DecidableEq, Repr

/-- What `writeTemplate` returned: nil, an error, or a panic. -/
inductive Outcome where
  | ok
  | err (e : Error)
  | panic (msg : String)
  deriving DecidableEq, Repr

/-- What a call leaves behind: what it returned and the bytes the sink holds. -/
structure Run where
  result : Outcome
  sink : String
  deriving DecidableEq, Repr

set_option linter.unusedVariables false in
/-- The function `writeTemplate(w, filesystem, templatePaths, data)` of
`htmx.go`; `strictTemplateChecking` is the package variable, which the body
never reads, and `parseFS` stands for `template.ParseFS(filesystem, ...)`. -/
def writeTemplate (strictTemplateChecking : Bool)
    (parseFS : List String → Except Cause Tmpl) (w : Writer)
    (templatePaths : List String) (data : Value) : Run :=
  match parseFS templatePaths with
  | .error cause => ⟨.err (.parseTemplate cause), w.received⟩
  | .ok tmpl =>
    match tmpl data with
    | .error cause => ⟨.err (.executeTemplate cause), w.received⟩
    | .ok buf =>
      if buf.length = 0 then ⟨.err .emptyOutput, w.received⟩
      else
        match bufferWriteTo buf w with
        | (.done, sink) => ⟨.ok, sink⟩
        | (.failed cause, sink) => ⟨.err (.writeTemplate cause), sink⟩
        | (.panic msg, sink) => ⟨.panic msg, sink⟩

end Htmx

/-! ## Package `trash` -/

namespace Trash

open Template

/-- Errors returned by `writeTemplate` of `trash.go`, one per `fmt.Errorf`. -/
inductive Error where
  | parseTemplate (cause : Cause)
  | executeTemplate (cause : Cause)
  | emptyOutput
  | writeTemplate (cause : Cause)
  | reExecuteTemplate (cause : Cause)
  | parseContent (cause : Template.Error)
  | missingValue (key : String)
  deriving DecidableEq, Repr

/-- What `writeTemplate` returned: nil, an error, or a panic. -/
inductive Outcome where
  | ok
  | err (e : Error)
  | panic (msg : String)
  deriving DecidableEq, Repr

/-- What a call leaves behind: what it returned and the bytes the sink holds. -/
structure Run where
  result : Outcome
  sink : String
  deriving DecidableEq, Repr

/-- The loop `for k, v := range content` of `trash.go`. -/
def validate : List (String × Leaf) → String → Outcome
  | [], _ => .ok
  | (_, .int _) :: rest, templateContents => validate rest templateContents
  | (_, .bool _) :: rest, templateContents => validate rest templateContents
  | (_, .other _) :: rest, templateContents => validate rest templateContents
  | (k, .str exptectedValue) :: rest, templateContents =>
    if stringsContains templateContents exptectedValue then validate rest templateContents
    else .err (.missingValue k)

/-- The block `if strictTemplateChecking { ... }` of `trash.go`, entered after
the write; `again` is the outcome of the second `tmpl.Execute`.  The functions
`parseContent` and `parseRecursive` of `trash.go` are the same text as those of
`template.go`. -/
def validation (range : FlatMap → List (String × Leaf))
    (again : Except Cause String) (data : Value) : Outcome :=
  match again with
  | .error cause => .err (.reExecuteTemplate cause)
  | .ok templateContents =>
    match data with
    | .nil => .ok
    | _ =>
      match Template.parseContent data with
      | .err e => .err (.parseContent e)
      | .panic msg => .panic msg
      | .ok content => validate (range content) templateContents

/-- The function `writeTemplate(w, templatePaths, data)` of `trash.go`;
`strictTemplateChecking` is the package variable, `parseFS` stands for
`template.ParseFS(os.DirFS("."), ...)`, and a parsed template maps the number
of executions made so far and the data to the outcome of `tmpl.Execute`. -/
def writeTemplate (strictTemplateChecking : Bool)
    (range : FlatMap → List (String × Leaf))
    (parseFS : List String → Except Cause (Nat → Tmpl)) (w : Writer)
    (templatePaths : List String) (data : Value) : Run :=
  match parseFS templatePaths with
  | .error cause => ⟨.err (.parseTemplate cause), w.received⟩
  | .ok tmpl =>
    match tmpl 0 data with
    | .error cause => ⟨.err (.executeTemplate cause), w.received⟩
    | .ok buf =>
      if buf.length = 0 then ⟨.err .emptyOutput, w.received⟩
      else
        match bufferWriteTo buf w with
        | (.failed cause, sink) => ⟨.err (.writeTemplate cause), sink⟩
        | (.panic msg, sink) => ⟨.panic msg, sink⟩
        | (.done, sink) =>
          if strictTemplateChecking then ⟨validation range (tmpl 1 data) data, sink⟩
          else ⟨.ok, sink⟩

end Trash

namespace Template

/-! ## Containment -/

theorem startsWith_iff (s sub : List Char) : startsWith s sub = true ↔ sub <+: s := by
  induction s generalizing sub with
  | nil =>
    cases sub with
    | nil => simp [startsWith]
    | cons d ds => simp [startsWith]
  | cons c cs ih =>
    cases sub with
    | nil => simp [startsWith]
    | cons d ds =>
      simp only [startsWith, Bool.and_eq_true, beq_iff_eq, ih, List.cons_prefix_cons]
      constructor
      · rintro ⟨h1, h2⟩
        exact ⟨h1.symm, h2⟩
      · rintro ⟨h1, h2⟩
        exact ⟨h1.symm, h2⟩

theorem containsChars_iff (s sub : List Char) : containsChars s sub = true ↔ sub <:+: s := by
  induction s with
  | nil =>
    cases sub with
    | nil => simp [containsChars, startsWith]
    | cons d ds => simp [containsChars, startsWith]
  | cons c cs ih =>
    simp only [containsChars, Bool.or_eq_true, startsWith_iff, ih, List.infix_cons_iff]

/-- The function `stringsContains` decides contiguous containment. -/
theorem stringsContains_iff (s substr : String) :
    stringsContains s substr = true ↔ substr.data <:+: s.data := by
  simp [stringsContains, containsChars_iff]

/-! ## The strict loop -/

theorem strictCheck_ok_iff (order : List (String × Leaf)) (buf : String) :
    strictCheck order buf = .ok () ↔
      ∀ k s, (k, Leaf.str s) ∈ order → stringsContains buf s = true := by
  induction order with
  | nil => simp [strictCheck]
  | cons kv rest ih =>
    obtain ⟨k, v⟩ := kv
    cases v with
    | int n => simp [strictCheck, ih]
    | bool b => simp [strictCheck, ih]
    | other d => simp [strictCheck, ih]
    | str e =>
      by_cases hc : stringsContains buf e = true
      · simp only [strictCheck, hc, if_true, ih, List.mem_cons, Prod.mk.injEq, Leaf.str.injEq]
        constructor
        · intro h k1 s1 hm
          rcases hm with ⟨_, rfl⟩ | hm
          · exact hc
          · exact h k1 s1 hm
        · intro h k1 s1 hm
          exact h k1 s1 (Or.inr hm)
      · simp only [strictCheck, hc, Bool.false_eq_true, if_false]
        constructor
        · intro h
          cases h
        · intro h
          exact absurd (h k e (List.mem_cons_self _ _)) hc

theorem strictCheck_err (order : List (String × Leaf)) (buf : String) (e : Error)
    (h : strictCheck order buf = .err e) :
    ∃ k s, e = .missingKey k ∧ (k, Leaf.str s) ∈ order ∧ stringsContains buf s = false := by
  induction order with
  | nil => simp [strictCheck] at h
  | cons kv rest ih =>
    obtain ⟨k, v⟩ := kv
    cases v with
    | int n =>
      obtain ⟨k1, s1, h1, h2, h3⟩ := ih (by simpa [strictCheck] using h)
      exact ⟨k1, s1, h1, List.mem_cons_of_mem _ h2, h3⟩
    | bool b =>
      obtain ⟨k1, s1, h1, h2, h3⟩ := ih (by simpa [strictCheck] using h)
      exact ⟨k1, s1, h1, List.mem_cons_of_mem _ h2, h3⟩
    | other d =>
      obtain ⟨k1, s1, h1, h2, h3⟩ := ih (by simpa [strictCheck] using h)
      exact ⟨k1, s1, h1, List.mem_cons_of_mem _ h2, h3⟩
    | str x =>
      by_cases hc : stringsContains buf x = true
      · obtain ⟨k1, s1, h1, h2, h3⟩ := ih (by simpa [strictCheck, hc] using h)
        exact ⟨k1, s1, h1, List.mem_cons_of_mem _ h2, h3⟩
      · simp only [strictCheck, hc, Bool.false_eq_true, if_false, Result.err.injEq] at h
        exact ⟨k, x, h.symm, List.mem_cons_self _ _, by simpa using hc⟩

theorem strictCheck_ne_panic (order : List (String × Leaf)) (buf : String) (msg : String) :
    strictCheck order buf ≠ .panic msg := by
  induction order with
  | nil => simp [strictCheck]
  | cons kv rest ih =>
    obtain ⟨k, v⟩ := kv
    cases v with
    | int n => simpa [strictCheck] using ih
    | bool b => simpa [strictCheck] using ih
    | other d => simpa [strictCheck] using ih
    | str x =>
      by_cases hc : stringsContains buf x = true
      · simpa [strictCheck, hc] using ih
      · simp [strictCheck, hc]

theorem strictCheck_filter (order : List (String × Leaf)) (buf : String) :
    strictCheck order buf = strictCheck (order.filter (fun kv => kv.2.isStr)) buf := by
  induction order with
  | nil => rfl
  | cons kv rest ih =>
    obtain ⟨k, v⟩ := kv
    cases v with
    | int n => simpa [strictCheck, Leaf.isStr] using ih
    | bool b => simpa [strictCheck, Leaf.isStr] using ih
    | other d => simpa [strictCheck, Leaf.isStr] using ih
    | str x =>
      by_cases hc : stringsContains buf x = true
      · simpa [strictCheck, Leaf.isStr, hc] using ih
      · simp [strictCheck, Leaf.isStr, hc]

/-! ## Flat maps -/

theorem FlatMap.keys_set_of_mem (m : FlatMap) (k : String) (v : Leaf) (h : k ∈ m.keys) :
    (m.set k v).keys = m.keys := by
  induction m with
  | nil => simp [FlatMap.keys] at h
  | cons kv rest ih =>
    obtain ⟨k0, v0⟩ := kv
    by_cases hk : k0 = k
    · simp [FlatMap.set, FlatMap.keys, hk]
    · have hr : k ∈ FlatMap.keys rest := by
        simp only [FlatMap.keys, List.map_cons, List.mem_cons] at h
        rcases h with h | h
        · exact absurd h.symm hk
        · exact h
      have := ih hr
      simp only [FlatMap.keys] at this
      simp [FlatMap.set, FlatMap.keys, hk, this]

theorem FlatMap.set_of_not_mem (m : FlatMap) (k : String) (v : Leaf) (h : k ∉ m.keys) :
    m.set k v = m ++ [(k, v)] := by
  induction m with
  | nil => rfl
  | cons kv rest ih =>
    obtain ⟨k0, v0⟩ := kv
    simp only [FlatMap.keys, List.map_cons, List.mem_cons, not_or] at h
    have hk : ¬ k0 = k := fun e => h.1 e.symm
    simp [FlatMap.set, hk, ih h.2]

theorem FlatMap.nodup_set (m : FlatMap) (k : String) (v : Leaf) (h : m.keys.Nodup) :
    (m.set k v).keys.Nodup := by
  by_cases hk : k ∈ m.keys
  · rw [FlatMap.keys_set_of_mem m k v hk]
    exact h
  · rw [FlatMap.set_of_not_mem m k v hk]
    simp only [FlatMap.keys, List.map_append, List.map_cons, List.map_nil]
    rw [List.nodup_append]
    refine ⟨h, List.nodup_singleton k, ?_⟩
    intro a ha hb
    simp only [List.mem_singleton] at hb
    subst hb
    exact hk ha

theorem FlatMap.get?_eq_none_of_not_mem (m : FlatMap) (k : String) (h : k ∉ m.keys) :
    m.get? k = none := by
  induction m with
  | nil => rfl
  | cons kv rest ih =>
    obtain ⟨k0, v0⟩ := kv
    simp only [FlatMap.keys, List.map_cons, List.mem_cons, not_or] at h
    have hk : ¬ k0 = k := fun e => h.1 e.symm
    simp [FlatMap.get?, hk, ih h.2]

theorem FlatMap.mem_of_get? (m : FlatMap) (k : String) (v : Leaf) (h : m.get? k = some v) :
    (k, v) ∈ m := by
  induction m with
  | nil => simp [FlatMap.get?] at h
  | cons kv rest ih =>
    obtain ⟨k0, v0⟩ := kv
    by_cases hk : k0 = k
    · simp only [FlatMap.get?, hk, if_true, Option.some.injEq] at h
      simp [hk, h]
    · simp only [FlatMap.get?, hk, if_false] at h
      exact List.mem_cons_of_mem _ (ih h)

theorem FlatMap.get?_of_mem (m : FlatMap) (k : String) (v : Leaf) (hnd : m.keys.Nodup)
    (h : (k, v) ∈ m) : m.get? k = some v := by
  induction m with
  | nil => simp at h
  | cons kv rest ih =>
    obtain ⟨k0, v0⟩ := kv
    simp only [FlatMap.keys, List.map_cons, List.nodup_cons] at hnd
    simp only [List.mem_cons, Prod.mk.injEq] at h
    rcases h with ⟨h1, h2⟩ | h
    · simp [FlatMap.get?, h1, h2]
    · have hk : ¬ k0 = k := by
        intro e
        apply hnd.1
        rw [e]
        exact List.mem_map_of_mem Prod.fst h
      simp only [FlatMap.get?, hk, if_false]
      exact ih hnd.2 h

/-! ## Invariants of the flattener -/

mutual
theorem parseRecursive_preserves (P : FlatMap → Prop)
    (hset : ∀ m k v, P m → P (FlatMap.set m k v)) :
    ∀ (data : Value) (pfx : String) (result r : FlatMap),
      P result → parseRecursive data pfx result = .ok r → P r
  | .nil, _, _, _, _, h => by simp [parseRecursive] at h
  | .nilPtr, _, _, _, _, h => by simp [parseRecursive] at h
  | .ptr elem, pfx, result, r, hP, h => by
    rw [parseRecursive] at h
    exact parseRecursive_preserves P hset elem pfx result r hP h
  | .struct fields, pfx, result, r, hP, h => by
    rw [parseRecursive] at h
    exact parseFields_preserves P hset fields pfx result r hP h
  | .map entries, pfx, result, r, hP, h => by
    rw [parseRecursive] at h
    exact parseEntries_preserves P hset entries pfx result r hP h
  | .seq elems, pfx, result, r, hP, h => by
    rw [parseRecursive] at h
    exact parseElems_preserves P hset elems 0 pfx result r hP h
  | .leaf l, pfx, result, r, hP, h => by
    simp only [parseRecursive, Result.ok.injEq] at h
    rw [← h]
    exact hset result pfx l hP
theorem parseFields_preserves (P : FlatMap → Prop)
    (hset : ∀ m k v, P m → P (FlatMap.set m k v)) :
    ∀ (fields : List (String × Bool × Value)) (pfx : String) (result r : FlatMap),
      P result → parseFields fields pfx result = .ok r → P r
  | [], _, result, r, hP, h => by
    simp only [parseFields, Result.ok.injEq] at h
    rw [← h]
    exact hP
  | (name, exported, fieldValue) :: rest, pfx, result, r, hP, h => by
    rw [parseFields] at h
    cases exported with
    | false => simp at h
    | true =>
      simp only [if_true] at h
      cases hq : parseRecursive fieldValue ((pfx ++ name) ++ ".") result with
      | ok r1 =>
        rw [hq] at h
        exact parseFields_preserves P hset rest pfx r1 r
          (parseRecursive_preserves P hset fieldValue _ result r1 hP hq) h
      | err e => rw [hq] at h; simp at h
      | panic msg => rw [hq] at h; simp at h
theorem parseEntries_preserves (P : FlatMap → Prop)
    (hset : ∀ m k v, P m → P (FlatMap.set m k v)) :
    ∀ (entries : List (String × Value)) (pfx : String) (result r : FlatMap),
      P result → parseEntries entries pfx result = .ok r → P r
  | [], _, result, r, hP, h => by
    simp only [parseEntries, Result.ok.injEq] at h
    rw [← h]
    exact hP
  | (key, mapValue) :: rest, pfx, result, r, hP, h => by
    rw [parseEntries] at h
    cases hq : parseRecursive mapValue ((pfx ++ key) ++ ".") result with
    | ok r1 =>
      rw [hq] at h
      exact parseEntries_preserves P hset rest pfx r1 r
        (parseRecursive_preserves P hset mapValue _ result r1 hP hq) h
    | err e => rw [hq] at h; simp at h
    | panic msg => rw [hq] at h; simp at h
theorem parseElems_preserves (P : FlatMap → Prop)
    (hset : ∀ m k v, P m → P (FlatMap.set m k v)) :
    ∀ (elems : List Value) (i : Nat) (pfx : String) (result r : FlatMap),
      P result → parseElems elems i pfx result = .ok r → P r
  | [], _, _, result, r, hP, h => by
    simp only [parseElems, Result.ok.injEq] at h
    rw [← h]
    exact hP
  | elem :: rest, i, pfx, result, r, hP, h => by
    rw [parseElems] at h
    cases hq : parseRecursive elem ((pfx ++ "[" ++ toString i ++ "]") ++ ".") result with
    | ok r1 =>
      rw [hq] at h
      exact parseElems_preserves P hset rest (i + 1) pfx r1 r
        (parseRecursive_preserves P hset elem _ result r1 hP hq) h
    | err e => rw [hq] at h; simp at h
    | panic msg => rw [hq] at h; simp at h
end

/-- The map returned by `parseContent` has pairwise distinct keys. -/
theorem parseContent_keys_nodup (data : Value) (content : FlatMap)
    (h : parseContent data = .ok content) : content.keys.Nodup := by
  unfold parseContent at h
  cases hq : parseRecursive data "" [] with
  | ok r =>
    rw [hq] at h
    simp only [Result.ok.injEq] at h
    rw [← h]
    exact parseRecursive_preserves (fun m => m.keys.Nodup)
      (fun m k v hm => FlatMap.nodup_set m k v hm) data "" [] r (by simp [FlatMap.keys]) hq
  | err e => rw [hq] at h; simp at h
  | panic msg => rw [hq] at h; simp at h

/-- Entries of the map returned by `parseContent`, as lookups. -/
theorem parseContent_mem_iff (data : Value) (content : FlatMap)
    (h : parseContent data = .ok content) (k : String) (v : Leaf) :
    (k, v) ∈ content ↔ content.get? k = some v :=
  ⟨FlatMap.get?_of_mem content k v (parseContent_keys_nodup data content h),
   FlatMap.mem_of_get? content k v⟩

/-! ## The pipeline -/

theorem length_ne_zero (buf : String) (h : buf ≠ "") : buf.length ≠ 0 := by
  intro h0
  apply h
  have hd : buf.data = [] := List.length_eq_zero.mp h0
  exact String.ext hd

theorem writeTo_acceptsAll (buf : String) (w : Writer) (hw : w.acceptsAll)
    (hb : buf.length ≠ 0) : writeTo buf w = ⟨.ok (), w.received ++ buf⟩ := by
  unfold writeTo
  rw [hw buf]
  simp only [hb, if_false, lt_irrefl, if_true]
  rw [show buf.length = buf.data.length from rfl, List.take_length]

/-- Once the templates parsed and rendered a non-empty buffer, `WriteTemplate`
is the strict block followed by the write. -/
theorem WriteTemplate_rendered (Strict : Bool) (range : FlatMap → List (String × Leaf))
    (h : Assets) (w : Writer) (templatePaths : List String) (data : Value)
    (tmpl : Tmpl) (buf : String)
    (hp : h.parseFS templatePaths = .ok tmpl) (he : tmpl data = .ok buf)
    (hb : buf.length ≠ 0) :
    WriteTemplate Strict range h w templatePaths data =
      match (if Strict then strictStep range data buf else .ok ()) with
      | .ok _ => writeTo buf w
      | .err e => ⟨.err e, w.received⟩
      | .panic msg => ⟨.panic msg, w.received⟩ := by
  unfold WriteTemplate
  rw [hp]
  simp only
  rw [he]
  simp only [hb, if_false]

/-- In strict mode, with a flattened map at hand and a sink that takes every
write, the run is decided by the strict loop alone. -/
theorem WriteTemplate_strict (range : FlatMap → List (String × Leaf))
    (h : Assets) (w : Writer) (templatePaths : List String) (data : Value)
    (tmpl : Tmpl) (buf : String) (content : FlatMap)
    (hp : h.parseFS templatePaths = .ok tmpl) (he : tmpl data = .ok buf)
    (hb : buf.length ≠ 0) (hc : parseContent data = .ok content) (hw : w.acceptsAll) :
    WriteTemplate true range h w templatePaths data =
      match strictCheck (range content) buf with
      | .ok _ => ⟨.ok (), w.received ++ buf⟩
      | .err e => ⟨.err e, w.received⟩
      | .panic msg => ⟨.panic msg, w.received⟩ := by
  rw [WriteTemplate_rendered true range h w templatePaths data tmpl buf hp he hb]
  simp only [if_true, strictStep, hc]
  cases strictCheck (range content) buf with
  | ok u => simp only [writeTo_acceptsAll buf w hw hb]
  | err e => rfl
  | panic msg => rfl

/-! ## Strict validation: success -/

/-- C1: in strict mode, once parse and execute succeeded with a non-empty
buffer, flattening returned a map and the sink takes every write,
`WriteTemplate` returns nil exactly when every string-valued entry of
`parseContent data` occurs in the buffer as a contiguous substring; the
iteration order of the flat map plays no part in the outcome. -/
theorem WriteTemplate_strict_ok_iff (range : FlatMap → List (String × Leaf))
    (h : Assets) (w : Writer) (templatePaths : List String) (data : Value)
    (tmpl : Tmpl) (buf : String) (content : FlatMap)
    (hrange : ∀ m : FlatMap, (range m).Perm m)
    (hp : h.parseFS templatePaths = .ok tmpl) (he : tmpl data = .ok buf)
    (hb : buf ≠ "") (hc : parseContent data = .ok content) (hw : w.acceptsAll) :
    (WriteTemplate true range h w templatePaths data).result = .ok () ↔
      ∀ k s, content.get? k = some (Leaf.str s) → s.data <:+: buf.data := by
  rw [WriteTemplate_strict range h w templatePaths data tmpl buf content hp he
    (length_ne_zero buf hb) hc hw]
  have hmem : ∀ k s, (k, Leaf.str s) ∈ range content ↔ content.get? k = some (Leaf.str s) :=
    fun k s => ((hrange content).mem_iff).trans (parseContent_mem_iff data content hc k _)
  have hiff := strictCheck_ok_iff (range content) buf
  simp only [hmem, stringsContains_iff] at hiff
  rw [← hiff]
  cases strictCheck (range content) buf with
  | ok u => simp
  | err e => simp
  | panic msg => simp

theorem WriteTemplate_strict_ok_iff_witness :
    "<h1>Hello, World!</h1><p>2025</p>" ≠ "" ∧
    parseContent yearRecord =
      .ok [("Title.", .str "Hello, World!"), ("Year.", .str "2025")] ∧
    ((WriteTemplate true id (Assets.rendering "<h1>Hello, World!</h1><p>2025</p>")
        (Writer.holding "") ["static/html/index.html", "static/html/footer.html"]
        yearRecord).result = .ok () ↔
      ∀ k s, FlatMap.get? [("Title.", .str "Hello, World!"), ("Year.", .str "2025")] k
          = some (Leaf.str s) →
        s.data <:+: "<h1>Hello, World!</h1><p>2025</p>".data) :=
  ⟨by decide, by decide,
   WriteTemplate_strict_ok_iff id (Assets.rendering "<h1>Hello, World!</h1><p>2025</p>")
     (Writer.holding "") ["static/html/index.html", "static/html/footer.html"] yearRecord
     (fun _ => .ok "<h1>Hello, World!</h1><p>2025</p>") "<h1>Hello, World!</h1><p>2025</p>"
     [("Title.", .str "Hello, World!"), ("Year.", .str "2025")]
     (fun m => List.Perm.refl m) rfl rfl (by decide) (by decide) (fun _ => rfl)⟩

/-! ## All-or-nothing release of the buffer -/

/-- C3: with a sink that takes every write, a run of `WriteTemplate` that
returns an error (parse, execute, empty output or strict validation) leaves
the sink as it was, and a run that returns nil has appended to the sink, once
and in full, the very buffer that execution produced and that the strict loop
inspected. -/
theorem WriteTemplate_all_or_nothing (Strict : Bool)
    (range : FlatMap → List (String × Leaf)) (h : Assets) (w : Writer)
    (templatePaths : List String) (data : Value) (hw : w.acceptsAll) :
    (∀ e, (WriteTemplate Strict range h w templatePaths data).result = .err e →
        (WriteTemplate Strict range h w templatePaths data).sink = w.received) ∧
    ((WriteTemplate Strict range h w templatePaths data).result = .ok () →
      ∃ tmpl buf, h.parseFS templatePaths = .ok tmpl ∧ tmpl data = .ok buf ∧ buf ≠ "" ∧
        (Strict = true → ∃ content, parseContent data = .ok content ∧
          strictCheck (range content) buf = .ok ()) ∧
        (WriteTemplate Strict range h w templatePaths data).sink = w.received ++ buf) := by
  cases hp : h.parseFS templatePaths with
  | error cause => simp [WriteTemplate, hp]
  | ok tmpl =>
    cases he : tmpl data with
    | error cause => simp [WriteTemplate, hp, he]
    | ok buf =>
      by_cases hb : buf.length = 0
      · simp [WriteTemplate, hp, he, hb]
      · have hne : buf ≠ "" := by
          intro e
          apply hb
          rw [e]
          rfl
        rw [WriteTemplate_rendered Strict range h w templatePaths data tmpl buf hp he hb]
        cases Strict with
        | false =>
          simp only [Bool.false_eq_true, if_false, writeTo_acceptsAll buf w hw hb]
          refine ⟨fun e he2 => by simp at he2, fun _ => ⟨tmpl, buf, rfl, he, hne, ?_, rfl⟩⟩
          intro hs
          simp at hs
        | true =>
          simp only [if_true, strictStep]
          cases hc : parseContent data with
          | err e0 => simp
          | panic msg => simp
          | ok content =>
            simp only
            cases hs : strictCheck (range content) buf with
            | err e0 => simp
            | panic msg => simp
            | ok u =>
              simp only [writeTo_acceptsAll buf w hw hb]
              refine ⟨fun e he2 => by simp at he2,
                fun _ => ⟨tmpl, buf, rfl, he, hne, fun _ => ⟨content, rfl, ?_⟩, rfl⟩⟩
              exact hs

theorem WriteTemplate_all_or_nothing_witness :
    (Writer.holding "seen;").acceptsAll ∧
    (WriteTemplate true id (Assets.rendering "<h1>Hello, World!</h1>") (Writer.holding "seen;")
        ["static/html/index.html"] yearRecord).result = .err (.missingKey "Year.") ∧
    (WriteTemplate true id (Assets.rendering "<h1>Hello, World!</h1>") (Writer.holding "seen;")
        ["static/html/index.html"] yearRecord).sink = "seen;" :=
  ⟨fun _ => rfl, by decide,
   (WriteTemplate_all_or_nothing true id (Assets.rendering "<h1>Hello, World!</h1>")
      (Writer.holding "seen;") ["static/html/index.html"] yearRecord (fun _ => rfl)).1
      (.missingKey "Year.") (by decide)⟩

/-! ## Empty output -/

/-- C4: whatever the data and whatever `Strict`, when execution succeeds with
a buffer of length zero `WriteTemplate` returns the empty-output error, never
nil; neither the strict block nor the write is reached, so the sink is as it
was and the outcome does not depend on the data, on the writer or on `Strict`. -/
theorem WriteTemplate_empty_output (Strict : Bool)
    (range : FlatMap → List (String × Leaf)) (h : Assets) (w : Writer)
    (templatePaths : List String) (data : Value) (tmpl : Tmpl) (buf : String)
    (hp : h.parseFS templatePaths = .ok tmpl) (he : tmpl data = .ok buf)
    (hb : buf.length = 0) :
    WriteTemplate Strict range h w templatePaths data = ⟨.err .emptyOutput, w.received⟩ ∧
    (WriteTemplate Strict range h w templatePaths data).result ≠ .ok () := by
  have hrun : WriteTemplate Strict range h w templatePaths data
      = ⟨.err .emptyOutput, w.received⟩ := by
    unfold WriteTemplate
    rw [hp]
    simp only
    rw [he]
    simp only [hb, if_true]
  rw [hrun]
  exact ⟨rfl, by simp⟩

theorem WriteTemplate_empty_output_witness :
    ("" : String).length = 0 ∧
    WriteTemplate true id (Assets.rendering "") ⟨"seen;", fun _ => (0, some ⟨"closed pipe", []⟩)⟩
      ["static/html/footer.html", "static/html/index.html"] Value.nil
      = ⟨.err .emptyOutput, "seen;"⟩ ∧
    WriteTemplate false id (Assets.rendering "") ⟨"seen;", fun _ => (0, some ⟨"closed pipe", []⟩)⟩
      ["static/html/footer.html", "static/html/index.html"] Value.nil
      = ⟨.err .emptyOutput, "seen;"⟩ :=
  ⟨rfl,
   (WriteTemplate_empty_output true id (Assets.rendering "")
      ⟨"seen;", fun _ => (0, some ⟨"closed pipe", []⟩)⟩
      ["static/html/footer.html", "static/html/index.html"] Value.nil
      (fun _ => .ok "") "" rfl rfl rfl).1,
   (WriteTemplate_empty_output false id (Assets.rendering "")
      ⟨"seen;", fun _ => (0, some ⟨"closed pipe", []⟩)⟩
      ["static/html/footer.html", "static/html/index.html"] Value.nil
      (fun _ => .ok "") "" rfl rfl rfl).1⟩

/-! ## Flattening a flat record -/

theorem append_dot_injective (a b : String) (h : a ++ "." = b ++ ".") : a = b := by
  apply String.ext
  have hd := congrArg String.data h
  simp only [String.data_append] at hd
  exact List.append_cancel_right hd

theorem parseFields_flat (fields : List (String × Leaf)) (pfx : String) (result : FlatMap) :
    parseFields (fields.map fun f => (f.1, true, Value.leaf f.2)) pfx result
      = .ok (fields.foldl (fun m f => FlatMap.set m ((pfx ++ f.1) ++ ".") f.2) result) := by
  induction fields generalizing result with
  | nil => simp [parseFields]
  | cons f rest ih =>
    simp only [List.map_cons, parseFields, if_true, parseRecursive, List.foldl_cons]
    exact ih _

theorem foldl_set_fresh (fields : List (String × Leaf)) (result : FlatMap)
    (hnd : (fields.map Prod.fst).Nodup)
    (hfresh : ∀ f ∈ fields, f.1 ++ "." ∉ result.keys) :
    fields.foldl (fun m f => FlatMap.set m (("" ++ f.1) ++ ".") f.2) result
      = result ++ fields.map (fun f => (f.1 ++ ".", f.2)) := by
  induction fields generalizing result with
  | nil => simp
  | cons f rest ih =>
    simp only [List.map_cons, List.nodup_cons] at hnd
    simp only [List.foldl_cons, String.empty_append]
    have hf : f.1 ++ "." ∉ FlatMap.keys result := hfresh f (List.mem_cons_self _ _)
    rw [FlatMap.set_of_not_mem result _ f.2 hf]
    have hrest : ∀ g ∈ rest, g.1 ++ "." ∉ FlatMap.keys (result ++ [(f.1 ++ ".", f.2)]) := by
      intro g hg hmem
      simp only [FlatMap.keys, List.map_append, List.map_cons, List.map_nil, List.mem_append,
        List.mem_singleton] at hmem
      rcases hmem with hmem | hmem
      · exact hfresh g (List.mem_cons_of_mem _ hg) hmem
      · have hgf : g.1 = f.1 := append_dot_injective _ _ hmem
        apply hnd.1
        rw [← hgf]
        exact List.mem_map_of_mem Prod.fst hg
    have := ih (result ++ [(f.1 ++ ".", f.2)]) hnd.2 hrest
    simp only [String.empty_append] at this
    rw [this]
    simp

theorem parseContent_flatRecord (fields : List (String × Leaf))
    (hnd : (fields.map Prod.fst).Nodup) :
    parseContent (flatRecord fields) = .ok (fields.map fun f => (f.1 ++ ".", f.2)) := by
  unfold parseContent flatRecord
  rw [parseRecursive, parseFields_flat, foldl_set_fresh fields [] hnd (by simp [FlatMap.keys])]
  simp

/-- C2 (counterexample): for the record of the test, no map returned by
`parseContent` has the lookups of the map with the bare field names as keys. -/
theorem parseContent_year_not_bare_names :
    ¬ ∃ m, parseContent yearRecord = .ok m ∧
      ∀ k, FlatMap.get? m k
        = FlatMap.get? [("Title", .str "Hello, World!"), ("Year", .str "2025")] k := by
  rintro ⟨m, hm, hk⟩
  have hrun : parseContent yearRecord
      = .ok [("Title.", .str "Hello, World!"), ("Year.", .str "2025")] := by decide
  rw [hrun] at hm
  simp only [Result.ok.injEq] at hm
  subst hm
  have := hk "Title"
  revert this
  decide

/-- C2 (amended): for every flat record whose fields are exported scalars
with pairwise distinct names, `parseContent` returns without error exactly the
map whose keys are the field names each followed by "." and whose values are
the field values, with no other entry; for the record of the test this is the
map with the keys "Title." and "Year.". -/
theorem parseContent_flat_record_keys (fields : List (String × Leaf))
    (hnd : (fields.map Prod.fst).Nodup) :
    parseContent (flatRecord fields) = .ok (fields.map fun f => (f.1 ++ ".", f.2)) ∧
    (∀ k v, FlatMap.get? (fields.map fun f => (f.1 ++ ".", f.2)) k = some v ↔
      ∃ name, (name, v) ∈ fields ∧ k = name ++ ".") := by
  refine ⟨parseContent_flatRecord fields hnd, fun k v => ?_⟩
  have hc := parseContent_flatRecord fields hnd
  rw [← parseContent_mem_iff (flatRecord fields) _ hc k v]
  simp only [List.mem_map, Prod.mk.injEq, Prod.exists]
  constructor
  · rintro ⟨name, l, hmem, hk, hv⟩
    subst hv
    exact ⟨name, hmem, hk.symm⟩
  · rintro ⟨name, hmem, hk⟩
    exact ⟨name, v, hmem, hk.symm, rfl⟩

theorem parseContent_flat_record_keys_witness :
    flatRecord [("Title", .str "Hello, World!"), ("Year", .str "2025")] = yearRecord ∧
    parseContent (flatRecord [("Title", .str "Hello, World!"), ("Year", .str "2025")])
      = .ok [("Title.", .str "Hello, World!"), ("Year.", .str "2025")] :=
  ⟨rfl,
   (parseContent_flat_record_keys [("Title", .str "Hello, World!"), ("Year", .str "2025")]
      (by decide)).1⟩

/-! ## The flattener returns no error -/

mutual
theorem parseRecursive_ne_err :
    ∀ (data : Value) (pfx : String) (result : FlatMap) (e : Error),
      parseRecursive data pfx result ≠ .err e
  | .nil, _, _, _ => by simp [parseRecursive]
  | .nilPtr, _, _, _ => by simp [parseRecursive]
  | .ptr elem, pfx, result, e => by
    rw [parseRecursive]
    exact parseRecursive_ne_err elem pfx result e
  | .struct fields, pfx, result, e => by
    rw [parseRecursive]
    exact parseFields_ne_err fields pfx result e
  | .map entries, pfx, result, e => by
    rw [parseRecursive]
    exact parseEntries_ne_err entries pfx result e
  | .seq elems, pfx, result, e => by
    rw [parseRecursive]
    exact parseElems_ne_err elems 0 pfx result e
  | .leaf l, pfx, result, e => by simp [parseRecursive]
theorem parseFields_ne_err :
    ∀ (fields : List (String × Bool × Value)) (pfx : String) (result : FlatMap) (e : Error),
      parseFields fields pfx result ≠ .err e
  | [], _, _, _ => by simp [parseFields]
  | (name, exported, fieldValue) :: rest, pfx, result, e => by
    rw [parseFields]
    cases exported with
    | false => simp
    | true =>
      simp only [if_true]
      cases hq : parseRecursive fieldValue ((pfx ++ name) ++ ".") result with
      | ok r1 => exact parseFields_ne_err rest pfx r1 e
      | err e1 => exact absurd hq (parseRecursive_ne_err fieldValue _ result e1)
      | panic msg => simp
theorem parseEntries_ne_err :
    ∀ (entries : List (String × Value)) (pfx : String) (result : FlatMap) (e : Error),
      parseEntries entries pfx result ≠ .err e
  | [], _, _, _ => by simp [parseEntries]
  | (key, mapValue) :: rest, pfx, result, e => by
    rw [parseEntries]
    cases hq : parseRecursive mapValue ((pfx ++ key) ++ ".") result with
    | ok r1 => exact parseEntries_ne_err rest pfx r1 e
    | err e1 => exact absurd hq (parseRecursive_ne_err mapValue _ result e1)
    | panic msg => simp
theorem parseElems_ne_err :
    ∀ (elems : List Value) (i : Nat) (pfx : String) (result : FlatMap) (e : Error),
      parseElems elems i pfx result ≠ .err e
  | [], _, _, _, _ => by simp [parseElems]
  | elem :: rest, i, pfx, result, e => by
    rw [parseElems]
    cases hq : parseRecursive elem ((pfx ++ "[" ++ toString i ++ "]") ++ ".") result with
    | ok r1 => exact parseElems_ne_err rest (i + 1) pfx r1 e
    | err e1 => exact absurd hq (parseRecursive_ne_err elem _ result e1)
    | panic msg => simp
end

theorem parseContent_ne_err (data : Value) (e : Error) : parseContent data ≠ .err e := by
  unfold parseContent
  cases hq : parseRecursive data "" [] with
  | ok r => simp
  | err e1 => exact absurd hq (parseRecursive_ne_err data "" [] e1)
  | panic msg => simp

/-- An error of the strict block comes from the loop over a flattened map. -/
theorem strictStep_err (range : FlatMap → List (String × Leaf)) (data : Value)
    (buf : String) (e : Error) (h : strictStep range data buf = .err e) :
    ∃ content, parseContent data = .ok content ∧ strictCheck (range content) buf = .err e := by
  unfold strictStep at h
  cases hc : parseContent data with
  | ok content =>
    rw [hc] at h
    exact ⟨content, rfl, h⟩
  | err e1 => exact absurd hc (parseContent_ne_err data e1)
  | panic msg => rw [hc] at h; simp at h

/-! ## Strict validation: failure -/

/-- C5 (counterexample): on a buffer that holds "Hello, World!" and not
"2025", the strict run on the record of the test names the key "Year.", not
the key "Year". -/
theorem WriteTemplate_year_key_not_bare :
    (WriteTemplate true id (Assets.rendering "<h1>Hello, World!</h1>") (Writer.holding "")
        ["static/html/index.html", "static/html/footer.html"] yearRecord).result
      = .err (.missingKey "Year.") ∧
    (WriteTemplate true id (Assets.rendering "<h1>Hello, World!</h1>") (Writer.holding "")
        ["static/html/index.html", "static/html/footer.html"] yearRecord).result
      ≠ .err (.missingKey "Year") := by
  decide

/-- C5 (amended): for the record of the test and every rendered buffer that
contains "Hello, World!" and does not contain "2025", whatever the iteration
order, `WriteTemplate` in strict mode returns an error that wraps
`ErrMissingData` and names the key "Year." (the field name followed by the
separator); nothing is written. -/
theorem WriteTemplate_year_missing (range : FlatMap → List (String × Leaf))
    (h : Assets) (w : Writer) (templatePaths : List String) (tmpl : Tmpl) (buf : String)
    (hrange : ∀ m : FlatMap, (range m).Perm m)
    (hp : h.parseFS templatePaths = .ok tmpl) (he : tmpl yearRecord = .ok buf)
    (hin : "Hello, World!".data <:+: buf.data) (hout : ¬ "2025".data <:+: buf.data) :
    WriteTemplate true range h w templatePaths yearRecord
      = ⟨.err (.missingKey "Year."), w.received⟩ ∧
    (Error.missingKey "Year.").Is .ErrMissingData = true := by
  refine ⟨?_, rfl⟩
  have hb : buf.length ≠ 0 := by
    intro h0
    have hd : buf.data = [] := List.length_eq_zero.mp h0
    rw [hd] at hin
    have := List.eq_nil_of_infix_nil hin
    revert this
    decide
  have hc : parseContent yearRecord
      = .ok [("Title.", .str "Hello, World!"), ("Year.", .str "2025")] := by decide
  rw [WriteTemplate_rendered true range h w templatePaths yearRecord tmpl buf hp he hb]
  simp only [if_true, strictStep, hc]
  cases hs : strictCheck (range [("Title.", .str "Hello, World!"), ("Year.", .str "2025")]) buf with
  | ok u =>
    exfalso
    have hall := (strictCheck_ok_iff _ buf).mp hs "Year." "2025"
      (((hrange _).mem_iff).mpr (by simp))
    exact hout ((stringsContains_iff buf "2025").mp hall)
  | panic msg => exact absurd hs (strictCheck_ne_panic _ buf msg)
  | err e =>
    obtain ⟨k, s1, hk, hmem, hmiss⟩ := strictCheck_err _ buf e hs
    have hmem2 := ((hrange _).mem_iff).mp hmem
    simp only [List.mem_cons, Prod.mk.injEq, Leaf.str.injEq, List.mem_singleton,
      List.not_mem_nil, or_false] at hmem2
    rcases hmem2 with ⟨_, hs1⟩ | ⟨hk1, _⟩
    · exfalso
      subst hs1
      have := (stringsContains_iff buf "Hello, World!").mpr hin
      rw [this] at hmiss
      cases hmiss
    · subst hk1
      subst hk
      rfl

theorem WriteTemplate_year_missing_witness :
    "Hello, World!".data <:+: "<h1>Hello, World!</h1>".data ∧
    ¬ "2025".data <:+: "<h1>Hello, World!</h1>".data ∧
    WriteTemplate true List.reverse (Assets.rendering "<h1>Hello, World!</h1>")
        (Writer.holding "seen;") ["static/html/index.html"] yearRecord
      = ⟨.err (.missingKey "Year."), "seen;"⟩ :=
  ⟨by decide, by decide,
   (WriteTemplate_year_missing List.reverse (Assets.rendering "<h1>Hello, World!</h1>")
      (Writer.holding "seen;") ["static/html/index.html"]
      (fun _ => .ok "<h1>Hello, World!</h1>") "<h1>Hello, World!</h1>"
      (fun m => List.reverse_perm m) rfl rfl (by decide) (by decide)).1⟩

/-- C6 (counterexample): an execute error can wrap `ErrMissingData`.  When a
function of the data called by the template returns an error that wraps the
sentinel, `WriteTemplate` returns its "execute template" error, and
`errors.Is` finds `ErrMissingData` in it through the `%w` of that site. -/
theorem executeTemplate_wraps_ErrMissingData :
    (WriteTemplate true id (Assets.failing execMissingCause) (Writer.holding "")
        ["static/html/index.html"] lookupRecord).result
      = .err (.executeTemplate execMissingCause) ∧
    (Error.executeTemplate execMissingCause).Is .ErrMissingData = true := by
  decide

/-- C6 (amended): whenever the strict block of `WriteTemplate` returns an
error, for every data value, non-empty buffer and iteration order, that error
is what `WriteTemplate` returns; it wraps `ErrMissingData`; the key it names is
a key of `parseContent data` whose value is a string that is not a substring
of the buffer; and it is none of the parse, execute and empty-output errors.
The empty-output error does not wrap `ErrMissingData`; a parse or an execute
error wraps it exactly when the cause it wraps with `%w` does. -/
theorem WriteTemplate_strict_failure (range : FlatMap → List (String × Leaf))
    (h : Assets) (w : Writer) (templatePaths : List String) (data : Value)
    (tmpl : Tmpl) (buf : String) (e : Error)
    (hrange : ∀ m : FlatMap, (range m).Perm m)
    (hp : h.parseFS templatePaths = .ok tmpl) (he : tmpl data = .ok buf) (hb : buf ≠ "")
    (hfail : strictStep range data buf = .err e) :
    WriteTemplate true range h w templatePaths data = ⟨.err e, w.received⟩ ∧
    e.Is .ErrMissingData = true ∧
    (∃ content k s, parseContent data = .ok content ∧ e = .missingKey k ∧
      content.get? k = some (Leaf.str s) ∧ ¬ s.data <:+: buf.data) ∧
    (∀ cause, e ≠ .parseTemplate cause ∧
      ((Error.parseTemplate cause).Is .ErrMissingData = true
        ↔ Sentinel.ErrMissingData ∈ cause.wraps)) ∧
    (∀ cause, e ≠ .executeTemplate cause ∧
      ((Error.executeTemplate cause).Is .ErrMissingData = true
        ↔ Sentinel.ErrMissingData ∈ cause.wraps)) ∧
    (e ≠ .emptyOutput ∧ Error.emptyOutput.Is .ErrMissingData = false) := by
  obtain ⟨content, hc, hs⟩ := strictStep_err range data buf e hfail
  obtain ⟨k, s1, hk, hmem, hmiss⟩ := strictCheck_err _ buf e hs
  subst hk
  refine ⟨?_, rfl, ⟨content, k, s1, hc, rfl, ?_, ?_⟩,
    fun cause => ⟨by simp, by simp [Error.Is]⟩,
    fun cause => ⟨by simp, by simp [Error.Is]⟩, ⟨by simp, rfl⟩⟩
  · rw [WriteTemplate_rendered true range h w templatePaths data tmpl buf hp he
      (length_ne_zero buf hb)]
    simp only [if_true, hfail]
  · exact (parseContent_mem_iff data content hc k _).mp (((hrange content).mem_iff).mp hmem)
  · intro hin
    have := (stringsContains_iff buf s1).mpr hin
    rw [this] at hmiss
    cases hmiss

theorem WriteTemplate_strict_failure_witness :
    "<p>2025</p>" ≠ "" ∧
    strictStep List.reverse yearRecord "<p>2025</p>" = .err (.missingKey "Title.") ∧
    WriteTemplate true List.reverse (Assets.rendering "<p>2025</p>") (Writer.holding "seen;")
        ["static/html/footer.html"] yearRecord
      = ⟨.err (.missingKey "Title."), "seen;"⟩ :=
  ⟨by decide, by decide,
   (WriteTemplate_strict_failure List.reverse (Assets.rendering "<p>2025</p>")
      (Writer.holding "seen;") ["static/html/footer.html"] yearRecord
      (fun _ => .ok "<p>2025</p>") "<p>2025</p>" (.missingKey "Title.")
      (fun m => List.reverse_perm m) rfl rfl (by decide) (by decide)).1⟩

/-! ## Nil data and nil pointers -/

/-- C7 (the code at the failing input): in strict mode with nil data, once
the templates parsed and rendered a non-empty buffer, `WriteTemplate` does not
return: the strict block panics inside `parseRecursive` and nothing is
written, whereas with `Strict` off the same call returns nil when the sink
takes every write. -/
theorem WriteTemplate_nil_data_panics (range : FlatMap → List (String × Leaf))
    (h : Assets) (w : Writer) (templatePaths : List String) (tmpl : Tmpl) (buf : String)
    (hp : h.parseFS templatePaths = .ok tmpl) (he : tmpl Value.nil = .ok buf)
    (hb : buf ≠ "") (hw : w.acceptsAll) :
    WriteTemplate true range h w templatePaths Value.nil
      = ⟨.panic zeroValuePanic, w.received⟩ ∧
    WriteTemplate false range h w templatePaths Value.nil
      = ⟨.ok (), w.received ++ buf⟩ := by
  constructor
  · rw [WriteTemplate_rendered true range h w templatePaths Value.nil tmpl buf hp he
      (length_ne_zero buf hb)]
    rfl
  · rw [WriteTemplate_rendered false range h w templatePaths Value.nil tmpl buf hp he
      (length_ne_zero buf hb)]
    simp only [Bool.false_eq_true, if_false]
    exact writeTo_acceptsAll buf w hw (length_ne_zero buf hb)

theorem WriteTemplate_nil_data_panics_witness :
    "<footer>static</footer>" ≠ "" ∧
    WriteTemplate true id (Assets.rendering "<footer>static</footer>") (Writer.holding "")
        ["static/html/footer.html"] Value.nil
      = ⟨.panic zeroValuePanic, ""⟩ :=
  ⟨by decide,
   (WriteTemplate_nil_data_panics id (Assets.rendering "<footer>static</footer>")
      (Writer.holding "") ["static/html/footer.html"] (fun _ => .ok "<footer>static</footer>")
      "<footer>static</footer>" rfl rfl (by decide) (fun _ => rfl)).1⟩

/-- C8 (the code at the failing inputs): on a nil pointer, at top level,
behind a pointer or nested in a record, a map or a sequence, `parseContent`
panics; it returns neither an error nor a map. -/
theorem parseContent_nil_pointer_panics :
    parseContent Value.nilPtr = .panic zeroValuePanic ∧
    parseContent (.ptr .nilPtr) = .panic zeroValuePanic ∧
    parseContent (.struct [("Title", true, .leaf (.str "Hello")), ("Owner", true, .nilPtr)])
      = .panic zeroValuePanic ∧
    parseContent (.map [("owner", .nilPtr)]) = .panic zeroValuePanic ∧
    parseContent (.seq [.leaf (.int 1), .nilPtr]) = .panic zeroValuePanic := by
  decide

/-! ## Non-string leaves -/

/-- C9: non-string leaves play no part in strict validation.  The strict loop
gives the same outcome on a flat map and on its string-valued entries alone;
for a flat record with an integer field, changing the value of that field
does not change whether the strict block succeeds; and data whose flat map has
no string value validates against every non-empty buffer. -/
theorem strictCheck_skips_non_strings :
    (∀ (order : List (String × Leaf)) (buf : String),
      strictCheck order buf = strictCheck (order.filter fun kv => kv.2.isStr) buf) ∧
    (∀ (range : FlatMap → List (String × Leaf)) (fs1 fs2 : List (String × Leaf))
        (name : String) (n n2 : Int) (buf : String),
      (∀ m : FlatMap, (range m).Perm m) →
      ((fs1 ++ (name, Leaf.int n) :: fs2).map Prod.fst).Nodup →
      (strictStep range (flatRecord (fs1 ++ (name, Leaf.int n) :: fs2)) buf = .ok () ↔
        strictStep range (flatRecord (fs1 ++ (name, Leaf.int n2) :: fs2)) buf = .ok ())) ∧
    (∀ (range : FlatMap → List (String × Leaf)) (h : Assets) (w : Writer)
        (templatePaths : List String) (data : Value) (tmpl : Tmpl) (buf : String)
        (content : FlatMap),
      (∀ m : FlatMap, (range m).Perm m) →
      h.parseFS templatePaths = .ok tmpl → tmpl data = .ok buf → buf ≠ "" →
      parseContent data = .ok content →
      (∀ k v, content.get? k = some v → v.isStr = false) → w.acceptsAll →
      WriteTemplate true range h w templatePaths data = ⟨.ok (), w.received ++ buf⟩) := by
  refine ⟨strictCheck_filter, ?_, ?_⟩
  · intro range fs1 fs2 name n n2 buf hrange hnd
    have hnd2 : ((fs1 ++ (name, Leaf.int n2) :: fs2).map Prod.fst).Nodup := by
      simpa using hnd
    simp only [strictStep, parseContent_flatRecord _ hnd, parseContent_flatRecord _ hnd2,
      strictCheck_ok_iff, (hrange _).mem_iff]
    simp
  · intro range h w templatePaths data tmpl buf content hrange hp he hb hc hns hw
    rw [WriteTemplate_strict range h w templatePaths data tmpl buf content hp he
      (length_ne_zero buf hb) hc hw]
    have hok : strictCheck (range content) buf = .ok () := by
      rw [strictCheck_ok_iff]
      intro k s hmem
      have hget := (parseContent_mem_iff data content hc k _).mp
        (((hrange content).mem_iff).mp hmem)
      have := hns k _ hget
      simp [Leaf.isStr] at this
    rw [hok]

theorem strictCheck_skips_non_strings_witness :
    parseContent (flatRecord [("Count", .int 42), ("Done", .bool true)])
      = .ok [("Count.", .int 42), ("Done.", .bool true)] ∧
    WriteTemplate true id (Assets.rendering "<p>no numbers here</p>") (Writer.holding "")
        ["static/html/index.html"] (flatRecord [("Count", .int 42), ("Done", .bool true)])
      = ⟨.ok (), "<p>no numbers here</p>"⟩ :=
  ⟨by decide,
   strictCheck_skips_non_strings.2.2 id (Assets.rendering "<p>no numbers here</p>")
     (Writer.holding "") ["static/html/index.html"]
     (flatRecord [("Count", .int 42), ("Done", .bool true)])
     (fun _ => .ok "<p>no numbers here</p>") "<p>no numbers here</p>"
     [("Count.", .int 42), ("Done.", .bool true)]
     (fun m => List.Perm.refl m) rfl rfl (by decide) (by decide)
     (fun k v hget => by
       have hm := FlatMap.mem_of_get? _ k v hget
       simp only [List.mem_cons, Prod.mk.injEq, List.not_mem_nil, or_false] at hm
       rcases hm with ⟨_, rfl⟩ | ⟨_, rfl⟩ <;> rfl)
     (fun _ => rfl)⟩

/-! ## Paths through a sequence -/

theorem index_field_key (pfx : String) (i : Nat) :
    ((((pfx ++ "[" ++ toString i ++ "]") ++ ".") ++ "Field") ++ ".")
      = pfx ++ ("[" ++ toString i ++ "].Field.") := by
  apply String.ext
  simp [String.data_append]

/-- C10 (counterexample): for a top-level sequence of two records with the
field `Field`, no map returned by `parseContent` has the keys "[0].Field" and
"[1].Field". -/
theorem parseContent_two_records_not_bare :
    ¬ ∃ m, parseContent (twoRecords (.str "a") (.str "b")) = .ok m ∧
      FlatMap.get? m "[0].Field" = some (.str "a") ∧
      FlatMap.get? m "[1].Field" = some (.str "b") := by
  rintro ⟨m, hm, h0, _⟩
  have hrun : parseContent (twoRecords (.str "a") (.str "b"))
      = .ok [("[0].Field.", .str "a"), ("[1].Field.", .str "b")] := by decide
  rw [hrun] at hm
  simp only [Result.ok.injEq] at hm
  subst hm
  revert h0
  decide

/-- C10 (amended): flattening a sequence of two records, each with a scalar
field named `Field`, under any path writes exactly two entries, at the path of
the sequence followed by "[0].Field." and by "[1].Field." (each segment is
followed by the separator), holding the field value of the corresponding
element; for a top-level sequence the map is exactly
"[0].Field." to the first value and "[1].Field." to the second. -/
theorem parseRecursive_two_records (a b : Leaf) (pfx : String) (result : FlatMap) :
    parseRecursive (twoRecords a b) pfx result
      = .ok (FlatMap.set (FlatMap.set result (pfx ++ "[0].Field.") a)
          (pfx ++ "[1].Field.") b) ∧
    parseContent (twoRecords a b) = .ok [("[0].Field.", a), ("[1].Field.", b)] := by
  have hrec : ∀ (p : String) (r : FlatMap), parseRecursive (twoRecords a b) p r
      = .ok (FlatMap.set (FlatMap.set r (p ++ "[0].Field.") a) (p ++ "[1].Field.") b) := by
    intro p r
    simp only [twoRecords, parseRecursive, parseElems, parseFields, if_true, index_field_key]
    rfl
  refine ⟨hrec pfx result, ?_⟩
  unfold parseContent
  rw [hrec "" []]
  rfl

/-! ## Scalars and pointers at top level -/

/-- C11: flattening a bare scalar at top level (a string, a number, a boolean
or any other non-nil scalar) returns, with a nil error, the singleton map that
holds the scalar under the empty path. -/
theorem parseContent_leaf (l : Leaf) :
    parseContent (.leaf l) = .ok [("", l)] ∧
    (∀ result : FlatMap, FlatMap.keys result = [] →
      parseRecursive (.leaf l) "" result = .ok [("", l)]) := by
  refine ⟨rfl, fun result hres => ?_⟩
  cases result with
  | nil => rfl
  | cons kv rest => simp [FlatMap.keys] at hres

theorem parseContent_leaf_witness :
    parseContent (.leaf (.str "2025")) = .ok [("", .str "2025")] ∧
    parseRecursive (.leaf (.int 7)) "" [] = .ok [("", .int 7)] :=
  ⟨(parseContent_leaf (.str "2025")).1, (parseContent_leaf (.int 7)).2 [] rfl⟩

theorem parseRecursive_pointerTo (n : Nat) (v : Value) (pfx : String) (result : FlatMap) :
    parseRecursive (pointerTo n v) pfx result = parseRecursive v pfx result := by
  induction n with
  | zero => rfl
  | succ n ih =>
    rw [pointerTo, parseRecursive]
    exact ih

/-- C12: references are transparent to flattening.  For every value, path and
flat map under construction, flattening a non-nil pointer to the value, or a
chain of any number of non-nil pointers to it, has the outcome of flattening
the value itself under the same path, so `parseContent` of the pointer is
`parseContent` of the value. -/
theorem parseRecursive_pointer_transparent (v : Value) (pfx : String) (result : FlatMap)
    (n : Nat) :
    parseRecursive (.ptr v) pfx result = parseRecursive v pfx result ∧
    parseRecursive (pointerTo n v) pfx result = parseRecursive v pfx result ∧
    parseContent (.ptr v) = parseContent v ∧
    parseContent (pointerTo n v) = parseContent v := by
  refine ⟨by rw [parseRecursive], parseRecursive_pointerTo n v pfx result, ?_, ?_⟩
  · unfold parseContent
    rw [parseRecursive]
  · unfold parseContent
    rw [parseRecursive_pointerTo]

/-! ## Decoration of the buffer -/

theorem stringsContains_decorated (buf p s sub : String)
    (h : stringsContains buf sub = true) : stringsContains (p ++ buf ++ s) sub = true := by
  rw [stringsContains_iff] at h ⊢
  simp only [String.data_append]
  exact h.trans ⟨p.data, s.data, rfl⟩

/-- C14: strict validation tolerates decoration.  If the strict loop succeeds
on a rendered buffer, it succeeds on that buffer with any text put before and
after it, whatever the order in which either run iterates the flat map. -/
theorem strictCheck_decorated (order1 order2 : List (String × Leaf)) (buf p s : String)
    (hperm : order1.Perm order2) (h : strictCheck order1 buf = .ok ()) :
    strictCheck order2 (p ++ buf ++ s) = .ok () := by
  rw [strictCheck_ok_iff] at h ⊢
  intro k x hmem
  exact stringsContains_decorated buf p s x (h k x (hperm.mem_iff.mpr hmem))

theorem strictCheck_decorated_witness :
    strictCheck [("Title.", .str "Hello, World!"), ("Year.", .str "2025")]
        "Hello, World! 2025" = .ok () ∧
    strictCheck [("Year.", .str "2025"), ("Title.", .str "Hello, World!")]
        ("<main>" ++ "Hello, World! 2025" ++ "</main>") = .ok () :=
  ⟨by decide,
   strictCheck_decorated [("Title.", .str "Hello, World!"), ("Year.", .str "2025")]
     [("Year.", .str "2025"), ("Title.", .str "Hello, World!")]
     "Hello, World! 2025" "<main>" "</main>" (List.Perm.swap _ _ _) (by decide)⟩

/-! ## Colliding paths -/

/-- C16: with maps, two leaves can share a path and the last write wins.  The
map with the entry "a.b" and, under "a", a map with the entry "b" has two
scalar leaves, yet `parseContent` returns a single entry, at the path "a.b.",
holding the leaf visited last: the nested one when the key "a.b" comes first,
the other one when `MapKeys` yields the keys the other way round. -/
theorem parseContent_collision (x y : Leaf) :
    leafCount (collidingMap x y) = 2 ∧
    leafCount (collidingMapRev x y) = 2 ∧
    parseContent (collidingMap x y) = .ok [("a.b.", y)] ∧
    parseContent (collidingMapRev x y) = .ok [("a.b.", x)] := by
  refine ⟨rfl, rfl, ?_, ?_⟩
  · simp [parseContent, collidingMap, parseRecursive, parseEntries, FlatMap.set]
  · simp [parseContent, collidingMapRev, parseRecursive, parseEntries, FlatMap.set]

/-! ## No error from the flattener -/

theorem writeTo_ne_strictParseContent (buf : String) (w : Writer) (e : Error) :
    (writeTo buf w).result ≠ .err (.strictParseContent e) := by
  unfold writeTo
  rcases hW : w.Write buf with ⟨m, cause⟩
  by_cases hb : buf.length = 0
  · simp [hb]
  · by_cases hlt : buf.length < m
    · simp [hb, hlt]
    · cases cause with
      | some c => simp [hb, hlt]
      | none =>
        by_cases hm : m = buf.length
        · simp [hb, hm]
        · simp [hb, hlt, hm]

/-- C18: `parseRecursive` and `parseContent` never return a non-nil error:
whenever they return, it is with a nil error and, for `parseContent`, a map;
hence `WriteTemplate` never returns the error of its branch
"strict check, parse content". -/
theorem parseContent_never_errors :
    (∀ (data : Value) (pfx : String) (result : FlatMap) (e : Error),
      parseRecursive data pfx result ≠ .err e) ∧
    (∀ (data : Value) (e : Error), parseContent data ≠ .err e) ∧
    (∀ (data : Value), (∃ content, parseContent data = .ok content) ∨
      (∃ msg, parseContent data = .panic msg)) ∧
    (∀ (Strict : Bool) (range : FlatMap → List (String × Leaf)) (h : Assets) (w : Writer)
        (templatePaths : List String) (data : Value) (e : Error),
      (WriteTemplate Strict range h w templatePaths data).result
        ≠ .err (.strictParseContent e)) := by
  refine ⟨parseRecursive_ne_err, parseContent_ne_err, ?_, ?_⟩
  · intro data
    cases hc : parseContent data with
    | ok content => exact Or.inl ⟨content, rfl⟩
    | err e => exact absurd hc (parseContent_ne_err data e)
    | panic msg => exact Or.inr ⟨msg, rfl⟩
  · intro Strict range h w templatePaths data e
    unfold WriteTemplate
    cases h.parseFS templatePaths with
    | error cause => simp
    | ok tmpl =>
      simp only
      cases tmpl data with
      | error cause => simp
      | ok buf =>
        simp only
        by_cases hb : buf.length = 0
        · simp [hb]
        · simp only [hb, if_false]
          cases Strict with
          | false =>
            simp only [Bool.false_eq_true, if_false]
            exact writeTo_ne_strictParseContent buf w e
          | true =>
            simp only [if_true]
            cases hs : strictStep range data buf with
            | ok u => exact writeTo_ne_strictParseContent buf w e
            | panic msg => simp
            | err e1 =>
              obtain ⟨content, _, hs2⟩ := strictStep_err range data buf e1 hs
              obtain ⟨k, _, hk, _, _⟩ := strictCheck_err _ buf e1 hs2
              subst hk
              simp

/-! ## Empty string leaves -/

theorem stringsContains_empty (buf : String) : stringsContains buf "" = true := by
  rw [stringsContains_iff]
  exact List.nil_infix

theorem strictCheck_filter_nonempty (order : List (String × Leaf)) (buf : String) :
    strictCheck order buf
      = strictCheck (order.filter fun kv => decide (kv.2 ≠ Leaf.str "")) buf := by
  induction order with
  | nil => rfl
  | cons kv rest ih =>
    obtain ⟨k, v⟩ := kv
    cases v with
    | int n => simpa [strictCheck] using ih
    | bool b => simpa [strictCheck] using ih
    | other d => simpa [strictCheck] using ih
    | str x =>
      by_cases hx : x = ""
      · subst hx
        simpa [strictCheck, stringsContains_empty] using ih
      · by_cases hc : stringsContains buf x = true
        · simpa [strictCheck, hx, hc] using ih
        · simp [strictCheck, hx, hc]

/-- C20: an empty string leaf never makes strict validation fail.  The empty
string is contained in every buffer; the strict loop has the same outcome with
the entries whose value is the empty string removed; and when the strict block
of `WriteTemplate` returns an error, the key it names holds a non-empty string
that is missing from the buffer. -/
theorem strictCheck_ignores_empty_strings :
    (∀ buf : String, stringsContains buf "" = true) ∧
    (∀ (order : List (String × Leaf)) (buf : String),
      strictCheck order buf
        = strictCheck (order.filter fun kv => decide (kv.2 ≠ Leaf.str "")) buf) ∧
    (∀ (range : FlatMap → List (String × Leaf)) (data : Value) (buf : String) (e : Error),
      (∀ m : FlatMap, (range m).Perm m) → strictStep range data buf = .err e →
      ∃ content k s, parseContent data = .ok content ∧ e = .missingKey k ∧
        content.get? k = some (Leaf.str s) ∧ s ≠ "" ∧ ¬ s.data <:+: buf.data) := by
  refine ⟨stringsContains_empty, strictCheck_filter_nonempty, ?_⟩
  intro range data buf e hrange hfail
  obtain ⟨content, hc, hs⟩ := strictStep_err range data buf e hfail
  obtain ⟨k, s1, hk, hmem, hmiss⟩ := strictCheck_err _ buf e hs
  refine ⟨content, k, s1, hc, hk, ?_, ?_, ?_⟩
  · exact (parseContent_mem_iff data content hc k _).mp (((hrange content).mem_iff).mp hmem)
  · intro hs1
    subst hs1
    rw [stringsContains_empty] at hmiss
    cases hmiss
  · intro hin
    have := (stringsContains_iff buf s1).mpr hin
    rw [this] at hmiss
    cases hmiss

theorem strictCheck_ignores_empty_strings_witness :
    strictStep id (flatRecord [("Title", .str "Hello"), ("Note", .str "")]) "<p>2025</p>"
      = .err (.missingKey "Title.") ∧
    (∃ content k s,
      parseContent (flatRecord [("Title", .str "Hello"), ("Note", .str "")]) = .ok content ∧
      Error.missingKey "Title." = .missingKey k ∧
      content.get? k = some (Leaf.str s) ∧ s ≠ "" ∧ ¬ s.data <:+: "<p>2025</p>".data) :=
  ⟨by decide,
   strictCheck_ignores_empty_strings.2.2 id
     (flatRecord [("Title", .str "Hello"), ("Note", .str "")]) "<p>2025</p>"
     (.missingKey "Title.") (fun m => List.Perm.refl m) (by decide)⟩

/-! ## The flattener as a replay of its assignments -/

theorem FlatMap.setAll_append (m : FlatMap) (a b : List (String × Leaf)) :
    FlatMap.setAll m (a ++ b) = FlatMap.setAll (FlatMap.setAll m a) b := by
  simp [FlatMap.setAll, List.foldl_append]

mutual
theorem parseRecursive_eq : ∀ (data : Value) (pfx : String) (result : FlatMap),
    parseRecursive data pfx result
      = finish (firstPanic data) (FlatMap.setAll result (leafWrites data pfx))
  | .nil, _, _ => rfl
  | .nilPtr, _, _ => rfl
  | .ptr elem, pfx, result => by
    rw [parseRecursive, firstPanic, leafWrites]
    exact parseRecursive_eq elem pfx result
  | .struct fields, pfx, result => by
    rw [parseRecursive, firstPanic, leafWrites]
    exact parseFields_eq fields pfx result
  | .map entries, pfx, result => by
    rw [parseRecursive, firstPanic, leafWrites]
    exact parseEntries_eq entries pfx result
  | .seq elems, pfx, result => by
    rw [parseRecursive, firstPanic, leafWrites]
    exact parseElems_eq elems 0 pfx result
  | .leaf l, pfx, result => rfl
theorem parseFields_eq : ∀ (fields : List (String × Bool × Value)) (pfx : String)
    (result : FlatMap),
    parseFields fields pfx result
      = finish (fieldsPanic fields) (FlatMap.setAll result (fieldWrites fields pfx))
  | [], _, _ => rfl
  | (name, exported, fieldValue) :: rest, pfx, result => by
    rw [parseFields, fieldsPanic, fieldWrites]
    cases exported with
    | false => rfl
    | true =>
      simp only [if_true]
      rw [parseRecursive_eq fieldValue _ result]
      cases firstPanic fieldValue with
      | some msg => rfl
      | none =>
        simp only [finish]
        rw [parseFields_eq rest pfx _, FlatMap.setAll_append]
        rfl
theorem parseEntries_eq : ∀ (entries : List (String × Value)) (pfx : String)
    (result : FlatMap),
    parseEntries entries pfx result
      = finish (entriesPanic entries) (FlatMap.setAll result (entryWrites entries pfx))
  | [], _, _ => rfl
  | (key, mapValue) :: rest, pfx, result => by
    rw [parseEntries, entriesPanic, entryWrites]
    rw [parseRecursive_eq mapValue _ result]
    cases firstPanic mapValue with
    | some msg => rfl
    | none =>
      simp only [finish]
      rw [parseEntries_eq rest pfx _, FlatMap.setAll_append]
      rfl
theorem parseElems_eq : ∀ (elems : List Value) (i : Nat) (pfx : String) (result : FlatMap),
    parseElems elems i pfx result
      = finish (elemsPanic elems) (FlatMap.setAll result (elemWrites elems i pfx))
  | [], _, _, _ => rfl
  | elem :: rest, i, pfx, result => by
    rw [parseElems, elemsPanic, elemWrites]
    rw [parseRecursive_eq elem _ result]
    cases firstPanic elem with
    | some msg => rfl
    | none =>
      simp only [finish]
      rw [parseElems_eq rest (i + 1) pfx _, FlatMap.setAll_append]
      rfl
end

/-- The function `parseContent` replays the assignments of the traversal on
the empty map, unless a panic stops it. -/
theorem parseContent_eq (data : Value) :
    parseContent data = finish (firstPanic data) (FlatMap.setAll [] (leafWrites data "")) := by
  unfold parseContent
  rw [parseRecursive_eq]
  cases firstPanic data <;> rfl

theorem parseContent_ok (data : Value) (content : FlatMap)
    (h : parseContent data = .ok content) :
    firstPanic data = none ∧ content = FlatMap.setAll [] (leafWrites data "") := by
  rw [parseContent_eq] at h
  cases hp : firstPanic data with
  | some msg => rw [hp] at h; simp [finish] at h
  | none =>
    rw [hp] at h
    simp only [finish, Result.ok.injEq] at h
    exact ⟨rfl, h.symm⟩

theorem FlatMap.mem_keys_set (m : FlatMap) (k : String) (v : Leaf) (k1 : String) :
    k1 ∈ FlatMap.keys (FlatMap.set m k v) ↔ k1 ∈ FlatMap.keys m ∨ k1 = k := by
  by_cases hk : k ∈ FlatMap.keys m
  · rw [FlatMap.keys_set_of_mem m k v hk]
    constructor
    · exact Or.inl
    · rintro (h | h)
      · exact h
      · rw [h]
        exact hk
  · rw [FlatMap.set_of_not_mem m k v hk]
    simp [FlatMap.keys]

theorem FlatMap.mem_keys_setAll (writes : List (String × Leaf)) (m : FlatMap) (k1 : String) :
    k1 ∈ FlatMap.keys (FlatMap.setAll m writes)
      ↔ k1 ∈ FlatMap.keys m ∨ k1 ∈ writes.map Prod.fst := by
  induction writes generalizing m with
  | nil => simp [FlatMap.setAll]
  | cons kv rest ih =>
    have hstep : FlatMap.setAll m (kv :: rest)
        = FlatMap.setAll (FlatMap.set m kv.1 kv.2) rest := rfl
    rw [hstep, ih, FlatMap.mem_keys_set]
    simp only [List.map_cons, List.mem_cons]
    tauto

/-! ## The shape of the keys -/

theorem endsWithDot_append_dot (p : String) : endsWithDot (p ++ ".") = true := by
  simp [endsWithDot, String.data_append]

mutual
theorem leafWrites_key : ∀ (data : Value) (pfx : String) (kv : String × Leaf),
    kv ∈ leafWrites data pfx → kv.1 = pfx ∨ endsWithDot kv.1 = true
  | .nil, _, _, h => by simp [leafWrites] at h
  | .nilPtr, _, _, h => by simp [leafWrites] at h
  | .ptr elem, pfx, kv, h => by
    rw [leafWrites] at h
    exact leafWrites_key elem pfx kv h
  | .struct fields, pfx, kv, h => by
    rw [leafWrites] at h
    exact Or.inr (fieldWrites_key fields pfx kv h)
  | .map entries, pfx, kv, h => by
    rw [leafWrites] at h
    exact Or.inr (entryWrites_key entries pfx kv h)
  | .seq elems, pfx, kv, h => by
    rw [leafWrites] at h
    exact Or.inr (elemWrites_key elems 0 pfx kv h)
  | .leaf l, pfx, kv, h => by
    simp only [leafWrites, List.mem_singleton] at h
    left
    rw [h]
theorem fieldWrites_key : ∀ (fields : List (String × Bool × Value)) (pfx : String)
    (kv : String × Leaf), kv ∈ fieldWrites fields pfx → endsWithDot kv.1 = true
  | [], _, _, h => by simp [fieldWrites] at h
  | (name, exported, fieldValue) :: rest, pfx, kv, h => by
    rw [fieldWrites, List.mem_append] at h
    rcases h with h | h
    · rcases leafWrites_key fieldValue _ kv h with hk | hk
      · rw [hk]
        exact endsWithDot_append_dot _
      · exact hk
    · exact fieldWrites_key rest pfx kv h
theorem entryWrites_key : ∀ (entries : List (String × Value)) (pfx : String)
    (kv : String × Leaf), kv ∈ entryWrites entries pfx → endsWithDot kv.1 = true
  | [], _, _, h => by simp [entryWrites] at h
  | (key, mapValue) :: rest, pfx, kv, h => by
    rw [entryWrites, List.mem_append] at h
    rcases h with h | h
    · rcases leafWrites_key mapValue _ kv h with hk | hk
      · rw [hk]
        exact endsWithDot_append_dot _
      · exact hk
    · exact entryWrites_key rest pfx kv h
theorem elemWrites_key : ∀ (elems : List Value) (i : Nat) (pfx : String)
    (kv : String × Leaf), kv ∈ elemWrites elems i pfx → endsWithDot kv.1 = true
  | [], _, _, _, h => by simp [elemWrites] at h
  | elem :: rest, i, pfx, kv, h => by
    rw [elemWrites, List.mem_append] at h
    rcases h with h | h
    · rcases leafWrites_key elem _ kv h with hk | hk
      · rw [hk]
        exact endsWithDot_append_dot _
      · exact hk
    · exact elemWrites_key rest (i + 1) pfx kv h
end

theorem leafWrites_key_nested : ∀ (data : Value) (pfx : String) (kv : String × Leaf),
    derefsToLeaf data = false → kv ∈ leafWrites data pfx → endsWithDot kv.1 = true
  | .nil, _, _, _, h => by simp [leafWrites] at h
  | .nilPtr, _, _, _, h => by simp [leafWrites] at h
  | .ptr elem, pfx, kv, hd, h => by
    rw [leafWrites] at h
    rw [derefsToLeaf] at hd
    exact leafWrites_key_nested elem pfx kv hd h
  | .struct fields, pfx, kv, _, h => by
    rw [leafWrites] at h
    exact fieldWrites_key fields pfx kv h
  | .map entries, pfx, kv, _, h => by
    rw [leafWrites] at h
    exact entryWrites_key entries pfx kv h
  | .seq elems, pfx, kv, _, h => by
    rw [leafWrites] at h
    exact elemWrites_key elems 0 pfx kv h
  | .leaf l, _, _, hd, _ => by simp [derefsToLeaf] at hd

theorem parseContent_key_mem (data : Value) (content : FlatMap)
    (h : parseContent data = .ok content) (k : String) (hk : k ∈ FlatMap.keys content) :
    ∃ kv, kv ∈ leafWrites data "" ∧ kv.1 = k := by
  rw [(parseContent_ok data content h).2, FlatMap.mem_keys_setAll] at hk
  simp only [FlatMap.keys, List.map_nil, List.not_mem_nil, false_or, List.mem_map] at hk
  exact hk

/-- C17: whenever `parseContent` returns a map, every key of it is the empty
string or ends with '.'; the empty key occurs only when the value at top
level, once its pointers are followed, is itself a scalar; consequently, when
the top-level value is a record, a map or a sequence, every key ends with '.'
and so equals no string that does not, a bare field name in particular. -/
theorem parseContent_key_shape (data : Value) (content : FlatMap)
    (h : parseContent data = .ok content) :
    (∀ k ∈ FlatMap.keys content, k = "" ∨ endsWithDot k = true) ∧
    ("" ∈ FlatMap.keys content → derefsToLeaf data = true) ∧
    (derefsToLeaf data = false → ∀ k ∈ FlatMap.keys content,
      endsWithDot k = true ∧ ∀ name : String, endsWithDot name = false → k ≠ name) := by
  have hnested : derefsToLeaf data = false → ∀ k ∈ FlatMap.keys content,
      endsWithDot k = true := by
    intro hd k hk
    obtain ⟨kv, hmem, hkv⟩ := parseContent_key_mem data content h k hk
    rw [← hkv]
    exact leafWrites_key_nested data "" kv hd hmem
  refine ⟨?_, ?_, ?_⟩
  · intro k hk
    obtain ⟨kv, hmem, hkv⟩ := parseContent_key_mem data content h k hk
    rw [← hkv]
    exact leafWrites_key data "" kv hmem
  · intro hk
    cases hd : derefsToLeaf data with
    | true => rfl
    | false =>
      have := hnested hd "" hk
      revert this
      decide
  · intro hd k hk
    refine ⟨hnested hd k hk, ?_⟩
    intro name hname heq
    rw [← heq, hnested hd k hk] at hname
    cases hname

theorem parseContent_key_shape_witness :
    parseContent yearRecord = .ok [("Title.", .str "Hello, World!"), ("Year.", .str "2025")] ∧
    (∀ k ∈ FlatMap.keys [("Title.", Leaf.str "Hello, World!"), ("Year.", Leaf.str "2025")],
      k = "" ∨ endsWithDot k = true) :=
  ⟨by decide,
   (parseContent_key_shape yearRecord
      [("Title.", .str "Hello, World!"), ("Year.", .str "2025")] (by decide)).1⟩

/-! ## Decimal rendering of indices -/

theorem toDigitsCore_eq (n : Nat) : ∀ (fuel : Nat) (ds : List Char), n < fuel →
    Nat.toDigitsCore 10 fuel n ds = Nat.toDigits 10 n ++ ds := by
  induction n using Nat.strong_induction_on with
  | _ n ih =>
    intro fuel ds hlt
    cases fuel with
    | zero => omega
    | succ f =>
      by_cases hq : n / 10 = 0
      · simp [Nat.toDigits, Nat.toDigitsCore, hq]
      · have hdiv : n / 10 < n := Nat.div_lt_self (by omega) (by decide)
        have h1 := ih (n / 10) hdiv f (Nat.digitChar (n % 10) :: ds) (by omega)
        have h2 := ih (n / 10) hdiv n [Nat.digitChar (n % 10)] hdiv
        simp only [Nat.toDigits, Nat.toDigitsCore, hq, if_false] at h1 h2 ⊢
        rw [h1, h2]
        simp

theorem toDigits_step (n : Nat) :
    Nat.toDigits 10 n = if n / 10 = 0 then [Nat.digitChar (n % 10)]
      else Nat.toDigits 10 (n / 10) ++ [Nat.digitChar (n % 10)] := by
  by_cases hq : n / 10 = 0
  · simp [Nat.toDigits, Nat.toDigitsCore, hq]
  · have hdiv : n / 10 < n := Nat.div_lt_self (by omega) (by decide)
    have h2 := toDigitsCore_eq (n / 10) n [Nat.digitChar (n % 10)] hdiv
    simp only [hq, if_false]
    rw [← h2]
    simp [Nat.toDigits, Nat.toDigitsCore, hq]

theorem digitChar_ne_dot : ∀ k, k < 10 → Nat.digitChar k ≠ '.' := by decide

theorem digitChar_inj : ∀ a, a < 10 → ∀ b, b < 10 → Nat.digitChar a = Nat.digitChar b → a = b := by
  decide

theorem toDigits_ne_nil (n : Nat) : Nat.toDigits 10 n ≠ [] := by
  rw [toDigits_step]
  split <;> simp

theorem dot_not_mem_toDigits (n : Nat) : '.' ∉ Nat.toDigits 10 n := by
  induction n using Nat.strong_induction_on with
  | _ n ih =>
    rw [toDigits_step]
    have hd : Nat.digitChar (n % 10) ≠ '.' := digitChar_ne_dot _ (Nat.mod_lt _ (by decide))
    by_cases hq : n / 10 = 0
    · simp only [hq, if_true, List.mem_singleton]
      exact fun h => hd h.symm
    · have hdiv : n / 10 < n := Nat.div_lt_self (by omega) (by decide)
      simp only [hq, if_false, List.mem_append, List.mem_singleton, not_or]
      exact ⟨ih _ hdiv, fun h => hd h.symm⟩

theorem toDigits_injective (n : Nat) : ∀ m, Nat.toDigits 10 n = Nat.toDigits 10 m → n = m := by
  induction n using Nat.strong_induction_on with
  | _ n ih =>
    intro m h
    rw [toDigits_step n, toDigits_step m] at h
    have hn := Nat.mod_lt n (show 10 > 0 by decide)
    have hm := Nat.mod_lt m (show 10 > 0 by decide)
    by_cases hqn : n / 10 = 0 <;> by_cases hqm : m / 10 = 0
    · simp only [hqn, hqm, if_true, List.cons.injEq, and_true] at h
      have := digitChar_inj _ hn _ hm h
      omega
    · simp only [hqn, hqm, if_true, if_false] at h
      have hlen := congrArg List.length h
      have hne := toDigits_ne_nil (m / 10)
      have : 0 < (Nat.toDigits 10 (m / 10)).length := List.length_pos.mpr hne
      simp only [List.length_append, List.length_singleton, List.length_cons, List.length_nil] at hlen
      omega
    · simp only [hqn, hqm, if_true, if_false] at h
      have hlen := congrArg List.length h
      have hne := toDigits_ne_nil (n / 10)
      have : 0 < (Nat.toDigits 10 (n / 10)).length := List.length_pos.mpr hne
      simp only [List.length_append, List.length_singleton, List.length_cons, List.length_nil] at hlen
      omega
    · simp only [hqn, hqm, if_false] at h
      have hdiv : n / 10 < n := Nat.div_lt_self (by omega) (by decide)
      obtain ⟨h1, h2⟩ := List.append_inj' h rfl
      have hq := ih _ hdiv _ h1
      simp only [List.cons.injEq, and_true] at h2
      have := digitChar_inj _ hn _ hm h2
      omega

theorem toString_data (i : Nat) : (toString i).data = Nat.toDigits 10 i := rfl

theorem segment_unique (a : List Char) : ∀ (b r1 r2 : List Char), '.' ∉ a → '.' ∉ b →
    a ++ '.' :: r1 = b ++ '.' :: r2 → a = b := by
  induction a with
  | nil =>
    intro b r1 r2 _ hb h
    cases b with
    | nil => rfl
    | cons c cs =>
      simp only [List.nil_append, List.cons_append, List.cons.injEq] at h
      exact absurd (h.1 ▸ List.mem_cons_self _ _) hb
  | cons x xs ih =>
    intro b r1 r2 ha hb h
    cases b with
    | nil =>
      simp only [List.nil_append, List.cons_append, List.cons.injEq] at h
      exact absurd (h.1 ▸ List.mem_cons_self _ _) ha
    | cons c cs =>
      simp only [List.cons_append, List.cons.injEq] at h
      have hxs : '.' ∉ xs := fun hm => ha (List.mem_cons_of_mem _ hm)
      have hcs : '.' ∉ cs := fun hm => hb (List.mem_cons_of_mem _ hm)
      rw [h.1, ih cs r1 r2 hxs hcs h.2]

/-! ## Distinct paths without maps -/

theorem child_data (pfx name : String) :
    ((pfx ++ name) ++ ".").data = pfx.data ++ (name.data ++ ['.']) := by
  simp [String.data_append]

theorem index_data (pfx : String) (i : Nat) :
    ((pfx ++ "[" ++ toString i ++ "]") ++ ".").data
      = pfx.data ++ (indexSegment i ++ ['.']) := by
  simp [String.data_append, indexSegment, toString_data]

theorem dot_not_mem_indexSegment (i : Nat) : '.' ∉ indexSegment i := by
  intro h
  simp only [indexSegment, List.mem_cons, List.mem_append, List.mem_singleton,
    List.not_mem_nil, or_false] at h
  rcases h with h | h | h
  · revert h
    decide
  · exact dot_not_mem_toDigits i h
  · revert h
    decide

theorem indexSegment_injective (i j : Nat) (h : indexSegment i = indexSegment j) : i = j := by
  simp only [indexSegment, List.cons.injEq, true_and] at h
  exact toDigits_injective i j (List.append_cancel_right h)

mutual
theorem leafWrites_path : ∀ (data : Value) (pfx : String) (kv : String × Leaf),
    kv ∈ leafWrites data pfx → ∃ rest, kv.1.data = pfx.data ++ rest
  | .nil, _, _, h => by simp [leafWrites] at h
  | .nilPtr, _, _, h => by simp [leafWrites] at h
  | .ptr elem, pfx, kv, h => by
    rw [leafWrites] at h
    exact leafWrites_path elem pfx kv h
  | .struct fields, pfx, kv, h => by
    rw [leafWrites] at h
    obtain ⟨name, _, rest, hk⟩ := fieldWrites_path fields pfx kv h
    exact ⟨_, hk⟩
  | .map entries, pfx, kv, h => by
    rw [leafWrites] at h
    obtain ⟨key, _, rest, hk⟩ := entryWrites_path entries pfx kv h
    exact ⟨_, hk⟩
  | .seq elems, pfx, kv, h => by
    rw [leafWrites] at h
    obtain ⟨j, _, rest, hk⟩ := elemWrites_path elems 0 pfx kv h
    exact ⟨_, hk⟩
  | .leaf l, pfx, kv, h => by
    simp only [leafWrites, List.mem_singleton] at h
    exact ⟨[], by rw [h]; simp⟩
theorem fieldWrites_path : ∀ (fields : List (String × Bool × Value)) (pfx : String)
    (kv : String × Leaf), kv ∈ fieldWrites fields pfx →
    ∃ name, name ∈ fields.map Prod.fst ∧
      ∃ rest, kv.1.data = pfx.data ++ (name.data ++ '.' :: rest)
  | [], _, _, h => by simp [fieldWrites] at h
  | (name, exported, fieldValue) :: rest, pfx, kv, h => by
    rw [fieldWrites, List.mem_append] at h
    rcases h with h | h
    · obtain ⟨r, hr⟩ := leafWrites_path fieldValue _ kv h
      refine ⟨name, by simp, r, ?_⟩
      rw [hr, child_data]
      simp
    · obtain ⟨name2, hmem, r, hr⟩ := fieldWrites_path rest pfx kv h
      exact ⟨name2, by simp only [List.map_cons, List.mem_cons]; exact Or.inr hmem, r, hr⟩
theorem entryWrites_path : ∀ (entries : List (String × Value)) (pfx : String)
    (kv : String × Leaf), kv ∈ entryWrites entries pfx →
    ∃ key, key ∈ entries.map Prod.fst ∧
      ∃ rest, kv.1.data = pfx.data ++ (key.data ++ '.' :: rest)
  | [], _, _, h => by simp [entryWrites] at h
  | (key, mapValue) :: rest, pfx, kv, h => by
    rw [entryWrites, List.mem_append] at h
    rcases h with h | h
    · obtain ⟨r, hr⟩ := leafWrites_path mapValue _ kv h
      refine ⟨key, by simp, r, ?_⟩
      rw [hr, child_data]
      simp
    · obtain ⟨key2, hmem, r, hr⟩ := entryWrites_path rest pfx kv h
      exact ⟨key2, by simp only [List.map_cons, List.mem_cons]; exact Or.inr hmem, r, hr⟩
theorem elemWrites_path : ∀ (elems : List Value) (i : Nat) (pfx : String)
    (kv : String × Leaf), kv ∈ elemWrites elems i pfx →
    ∃ j, i ≤ j ∧ ∃ rest, kv.1.data = pfx.data ++ (indexSegment j ++ '.' :: rest)
  | [], _, _, _, h => by simp [elemWrites] at h
  | elem :: rest, i, pfx, kv, h => by
    rw [elemWrites, List.mem_append] at h
    rcases h with h | h
    · obtain ⟨r, hr⟩ := leafWrites_path elem _ kv h
      refine ⟨i, Nat.le_refl i, r, ?_⟩
      rw [hr, index_data]
      simp
    · obtain ⟨j, hj, r, hr⟩ := elemWrites_path rest (i + 1) pfx kv h
      exact ⟨j, by omega, r, hr⟩
end

theorem fieldsMapFree_cons (name : String) (exported : Bool) (fieldValue : Value)
    (rest : List (String × Bool × Value))
    (h : fieldsMapFree ((name, exported, fieldValue) :: rest) = true) :
    '.' ∉ name.data ∧ name ∉ rest.map Prod.fst ∧ mapFree fieldValue = true ∧
      fieldsMapFree rest = true := by
  simp only [fieldsMapFree, Bool.and_eq_true, decide_eq_true_eq] at h
  exact ⟨h.1.1.1.1, h.1.1.2, h.1.2, h.2⟩

theorem fieldsMapFree_names (fields : List (String × Bool × Value))
    (h : fieldsMapFree fields = true) : ∀ name ∈ fields.map Prod.fst, '.' ∉ name.data := by
  induction fields with
  | nil => simp
  | cons f rest ih =>
    obtain ⟨name, exported, fieldValue⟩ := f
    obtain ⟨hdot, _, _, hrest⟩ := fieldsMapFree_cons name exported fieldValue rest h
    intro n hn
    simp only [List.map_cons, List.mem_cons] at hn
    rcases hn with hn | hn
    · rw [hn]
      exact hdot
    · exact ih hrest n hn

theorem keys_disjoint_of_segments (pfx : String) (a b r1 r2 : List Char) (k : String)
    (ha : '.' ∉ a) (hb : '.' ∉ b) (hne : a ≠ b)
    (h1 : k.data = pfx.data ++ (a ++ '.' :: r1)) (h2 : k.data = pfx.data ++ (b ++ '.' :: r2)) :
    False := by
  rw [h1] at h2
  exact hne (segment_unique a b r1 r2 ha hb (List.append_cancel_left h2))

mutual
theorem leafWrites_nodup : ∀ (data : Value), mapFree data = true → ∀ (pfx : String),
    ((leafWrites data pfx).map Prod.fst).Nodup
  | .nil, h, _ => by simp [mapFree] at h
  | .nilPtr, h, _ => by simp [mapFree] at h
  | .ptr _, h, _ => by simp [mapFree] at h
  | .map _, h, _ => by simp [mapFree] at h
  | .struct fields, h, pfx => by
    rw [mapFree] at h
    rw [leafWrites]
    exact fieldWrites_nodup fields h pfx
  | .seq elems, h, pfx => by
    rw [mapFree] at h
    rw [leafWrites]
    exact elemWrites_nodup elems h 0 pfx
  | .leaf l, _, pfx => by simp [leafWrites]
theorem fieldWrites_nodup : ∀ (fields : List (String × Bool × Value)),
    fieldsMapFree fields = true → ∀ (pfx : String),
    ((fieldWrites fields pfx).map Prod.fst).Nodup
  | [], _, _ => by simp [fieldWrites]
  | (name, exported, fieldValue) :: rest, h, pfx => by
    obtain ⟨hdot, hfresh, hv, hrest⟩ := fieldsMapFree_cons name exported fieldValue rest h
    rw [fieldWrites, List.map_append, List.nodup_append]
    refine ⟨leafWrites_nodup fieldValue hv _, fieldWrites_nodup rest hrest pfx, ?_⟩
    intro k hk1 hk2
    obtain ⟨kv1, hm1, he1⟩ := List.mem_map.mp hk1
    obtain ⟨kv2, hm2, he2⟩ := List.mem_map.mp hk2
    obtain ⟨r1, hr1⟩ := leafWrites_path fieldValue _ kv1 hm1
    obtain ⟨name2, hn2, r2, hr2⟩ := fieldWrites_path rest pfx kv2 hm2
    rw [he1, child_data] at hr1
    rw [he2] at hr2
    have hr1b : k.data = pfx.data ++ (name.data ++ '.' :: r1) := by
      rw [hr1]
      simp
    have hne : name.data ≠ name2.data := by
      intro e
      apply hfresh
      rw [String.ext e]
      exact hn2
    exact keys_disjoint_of_segments pfx _ _ r1 r2 k hdot
      (fieldsMapFree_names rest hrest name2 hn2) hne hr1b hr2
theorem elemWrites_nodup : ∀ (elems : List Value), elemsMapFree elems = true →
    ∀ (i : Nat) (pfx : String), ((elemWrites elems i pfx).map Prod.fst).Nodup
  | [], _, _, _ => by simp [elemWrites]
  | elem :: rest, h, i, pfx => by
    simp only [elemsMapFree, Bool.and_eq_true] at h
    rw [elemWrites, List.map_append, List.nodup_append]
    refine ⟨leafWrites_nodup elem h.1 _, elemWrites_nodup rest h.2 (i + 1) pfx, ?_⟩
    intro k hk1 hk2
    obtain ⟨kv1, hm1, he1⟩ := List.mem_map.mp hk1
    obtain ⟨kv2, hm2, he2⟩ := List.mem_map.mp hk2
    obtain ⟨r1, hr1⟩ := leafWrites_path elem _ kv1 hm1
    obtain ⟨j, hj, r2, hr2⟩ := elemWrites_path rest (i + 1) pfx kv2 hm2
    rw [he1, index_data] at hr1
    rw [he2] at hr2
    have hr1b : k.data = pfx.data ++ (indexSegment i ++ '.' :: r1) := by
      rw [hr1]
      simp
    have hne : indexSegment i ≠ indexSegment j := by
      intro e
      have := indexSegment_injective i j e
      omega
    exact keys_disjoint_of_segments pfx _ _ r1 r2 k (dot_not_mem_indexSegment i)
      (dot_not_mem_indexSegment j) hne hr1b hr2
end

mutual
theorem leafWrites_length : ∀ (data : Value) (pfx : String),
    (leafWrites data pfx).length = leafCount data
  | .nil, _ => rfl
  | .nilPtr, _ => rfl
  | .ptr elem, pfx => by
    rw [leafWrites, leafCount]
    exact leafWrites_length elem pfx
  | .struct fields, pfx => by
    rw [leafWrites, leafCount]
    exact fieldWrites_length fields pfx
  | .map entries, pfx => by
    rw [leafWrites, leafCount]
    exact entryWrites_length entries pfx
  | .seq elems, pfx => by
    rw [leafWrites, leafCount]
    exact elemWrites_length elems 0 pfx
  | .leaf _, _ => rfl
theorem fieldWrites_length : ∀ (fields : List (String × Bool × Value)) (pfx : String),
    (fieldWrites fields pfx).length = fieldsLeafCount fields
  | [], _ => rfl
  | (name, exported, fieldValue) :: rest, pfx => by
    rw [fieldWrites, fieldsLeafCount, List.length_append, leafWrites_length fieldValue,
      fieldWrites_length rest pfx]
theorem entryWrites_length : ∀ (entries : List (String × Value)) (pfx : String),
    (entryWrites entries pfx).length = entriesLeafCount entries
  | [], _ => rfl
  | (key, mapValue) :: rest, pfx => by
    rw [entryWrites, entriesLeafCount, List.length_append, leafWrites_length mapValue,
      entryWrites_length rest pfx]
theorem elemWrites_length : ∀ (elems : List Value) (i : Nat) (pfx : String),
    (elemWrites elems i pfx).length = elemsLeafCount elems
  | [], _, _ => rfl
  | elem :: rest, i, pfx => by
    rw [elemWrites, elemsLeafCount, List.length_append, leafWrites_length elem,
      elemWrites_length rest (i + 1) pfx]
end

theorem FlatMap.setAll_fresh (writes : List (String × Leaf)) : ∀ (m : FlatMap),
    (writes.map Prod.fst).Nodup → (∀ k ∈ writes.map Prod.fst, k ∉ FlatMap.keys m) →
    FlatMap.setAll m writes = m ++ writes := by
  induction writes with
  | nil => intro m _ _; simp [FlatMap.setAll]
  | cons kv rest ih =>
    intro m hnd hfresh
    simp only [List.map_cons, List.nodup_cons] at hnd
    have hstep : FlatMap.setAll m (kv :: rest)
        = FlatMap.setAll (FlatMap.set m kv.1 kv.2) rest := rfl
    have hk : kv.1 ∉ FlatMap.keys m := hfresh kv.1 (by simp)
    rw [hstep, FlatMap.set_of_not_mem m kv.1 kv.2 hk]
    rw [ih (m ++ [(kv.1, kv.2)]) hnd.2]
    · simp
    · intro k hkr hmem
      simp only [FlatMap.keys, List.map_append, List.map_cons, List.map_nil, List.mem_append,
        List.mem_singleton] at hmem
      rcases hmem with hmem | hmem
      · exact hfresh k (by simp only [List.map_cons, List.mem_cons]; exact Or.inr hkr) hmem
      · rw [hmem] at hkr
        exact hnd.1 hkr

mutual
theorem firstPanic_mapFree : ∀ (data : Value), mapFree data = true →
    exportedOnly data = true → firstPanic data = none
  | .nil, h, _ => by simp [mapFree] at h
  | .nilPtr, h, _ => by simp [mapFree] at h
  | .ptr _, h, _ => by simp [mapFree] at h
  | .map _, h, _ => by simp [mapFree] at h
  | .struct fields, h, he => by
    rw [mapFree] at h
    rw [exportedOnly] at he
    rw [firstPanic]
    exact fieldsPanic_mapFree fields h he
  | .seq elems, h, he => by
    rw [mapFree] at h
    rw [exportedOnly] at he
    rw [firstPanic]
    exact elemsPanic_mapFree elems h he
  | .leaf _, _, _ => rfl
theorem fieldsPanic_mapFree : ∀ (fields : List (String × Bool × Value)),
    fieldsMapFree fields = true → fieldsExported fields = true → fieldsPanic fields = none
  | [], _, _ => rfl
  | (name, exported, fieldValue) :: rest, h, he => by
    obtain ⟨_, _, hv, hrest⟩ := fieldsMapFree_cons name exported fieldValue rest h
    simp only [fieldsExported, Bool.and_eq_true] at he
    rw [fieldsPanic, he.1.1, if_pos rfl, firstPanic_mapFree fieldValue hv he.1.2]
    exact fieldsPanic_mapFree rest hrest he.2
theorem elemsPanic_mapFree : ∀ (elems : List Value),
    elemsMapFree elems = true → elemsExported elems = true → elemsPanic elems = none
  | [], _, _ => rfl
  | elem :: rest, h, he => by
    simp only [elemsMapFree, Bool.and_eq_true] at h
    simp only [elemsExported, Bool.and_eq_true] at he
    rw [elemsPanic, firstPanic_mapFree elem h.1 he.1]
    exact elemsPanic_mapFree rest h.2 he.2
end

/-- C13: for a value built only from scalars, records whose field names are
pairwise distinct and free of '.' and '[', and ordered sequences, the paths
assigned by `parseRecursive` to distinct leaf positions are distinct, so no
assignment overwrites another: whenever `parseContent` returns a map, the map
is the list of the assignments made, one entry per scalar leaf; and it does
return a map when every field is exported. -/
theorem parseContent_map_free_unique (data : Value) (hmf : mapFree data = true) :
    (∀ pfx : String, ((leafWrites data pfx).map Prod.fst).Nodup) ∧
    (∀ content, parseContent data = .ok content →
      content = leafWrites data "" ∧ content.length = leafCount data) ∧
    (exportedOnly data = true →
      ∃ content, parseContent data = .ok content ∧ content.length = leafCount data) := by
  have hfresh : FlatMap.setAll [] (leafWrites data "") = leafWrites data "" := by
    rw [FlatMap.setAll_fresh _ [] (leafWrites_nodup data hmf "") (by simp [FlatMap.keys])]
    simp
  refine ⟨leafWrites_nodup data hmf, ?_, ?_⟩
  · intro content hc
    have := (parseContent_ok data content hc).2
    rw [hfresh] at this
    rw [this]
    exact ⟨rfl, leafWrites_length data ""⟩
  · intro hexp
    refine ⟨leafWrites data "", ?_, leafWrites_length data ""⟩
    rw [parseContent_eq, firstPanic_mapFree data hmf hexp, hfresh]
    rfl

theorem parseContent_map_free_unique_witness :
    mapFree taggedRecord = true ∧ leafCount taggedRecord = 3 ∧
    (∃ content, parseContent taggedRecord = .ok content ∧
      content.length = leafCount taggedRecord) ∧
    parseContent taggedRecord
      = .ok [("Title.", .str "Hello"), ("Tags.[0].", .str "a"), ("Tags.[1].", .str "b")] :=
  ⟨by decide, by decide,
   (parseContent_map_free_unique taggedRecord (by decide)).2.2 (by decide), by decide⟩

/-! ## The write of `bytes.Buffer` -/

theorem bufferWriteTo_acceptsAll (buf : String) (w : Writer) (hw : w.acceptsAll)
    (hb : buf.length ≠ 0) : bufferWriteTo buf w = (.done, w.received ++ buf) := by
  unfold bufferWriteTo
  rw [hw buf]
  simp only [hb, if_false, lt_irrefl, if_true]
  rw [show buf.length = buf.data.length from rfl, List.take_length]

theorem bufferWriteTo_done (buf : String) (w : Writer) (sink : String)
    (h : bufferWriteTo buf w = (.done, sink)) : sink = w.received ++ buf := by
  unfold bufferWriteTo at h
  rcases hW : w.Write buf with ⟨m, cause⟩
  rw [hW] at h
  by_cases hb : buf.length = 0
  · simp only [hb, if_true, Prod.mk.injEq, true_and] at h
    have hd : buf.data = [] := List.length_eq_zero.mp hb
    rw [← h]
    apply String.ext
    simp [hd]
  · by_cases hlt : buf.length < m
    · simp [hb, hlt] at h
    · cases cause with
      | some c => simp [hb, hlt] at h
      | none =>
        by_cases hm : m = buf.length
        · subst hm
          simp only [hb, if_false, lt_irrefl, if_true, Prod.mk.injEq, true_and] at h
          rw [← h, show buf.length = buf.data.length from rfl, List.take_length]
        · simp [hb, hlt, hm] at h

theorem append_ne_self (a buf : String) (hb : buf ≠ "") : a ++ buf ≠ a := by
  intro h
  apply hb
  have hd := congrArg String.data h
  simp only [String.data_append, List.append_right_eq_self] at hd
  exact String.ext hd

theorem writeTo_ne_missingKey (buf : String) (w : Writer) (k : String) :
    (writeTo buf w).result ≠ .err (.missingKey k) := by
  unfold writeTo
  rcases hW : w.Write buf with ⟨m, cause⟩
  by_cases hb : buf.length = 0
  · simp [hb]
  · by_cases hlt : buf.length < m
    · simp [hb, hlt]
    · cases cause with
      | some c => simp [hb, hlt]
      | none =>
        by_cases hm : m = buf.length
        · simp [hb, hm]
        · simp [hb, hlt, hm]

end Template

namespace Htmx

open Template

/-! ## `htmx.writeTemplate` makes no check -/

/-- C15 (the code at the failing input): whatever `strictTemplateChecking`
and whatever the data, once the templates parsed and rendered a non-empty
buffer and the sink takes every write, `writeTemplate` of package `htmx`
returns nil and writes the buffer; no value of the data is looked for in the
output, so a string field missing from it is not reported. -/
theorem writeTemplate_checks_nothing (strictTemplateChecking : Bool)
    (parseFS : List String → Except Cause Tmpl) (w : Writer)
    (templatePaths : List String) (data : Value) (tmpl : Tmpl) (buf : String)
    (hp : parseFS templatePaths = .ok tmpl) (he : tmpl data = .ok buf) (hb : buf ≠ "")
    (hw : w.acceptsAll) :
    writeTemplate strictTemplateChecking parseFS w templatePaths data
      = ⟨.ok, w.received ++ buf⟩ := by
  unfold writeTemplate
  rw [hp]
  simp only
  rw [he]
  simp only [length_ne_zero buf hb, if_false,
    bufferWriteTo_acceptsAll buf w hw (length_ne_zero buf hb)]

theorem writeTemplate_checks_nothing_witness :
    parseContent yearRecord = .ok [("Title.", .str "Hello, World!"), ("Year.", .str "2025")] ∧
    ¬ "2025".data <:+: "<h1>Hello, World!</h1>".data ∧
    writeTemplate true (fun _ => .ok (fun _ => .ok "<h1>Hello, World!</h1>"))
        (Writer.holding "") ["static/html/index.html", "static/html/footer.html"] yearRecord
      = ⟨.ok, "<h1>Hello, World!</h1>"⟩ :=
  ⟨by decide, by decide,
   writeTemplate_checks_nothing true (fun _ => .ok (fun _ => .ok "<h1>Hello, World!</h1>"))
     (Writer.holding "") ["static/html/index.html", "static/html/footer.html"] yearRecord
     (fun _ => .ok "<h1>Hello, World!</h1>") "<h1>Hello, World!</h1>" rfl rfl (by decide)
     (fun _ => rfl)⟩

end Htmx

namespace Trash

open Template

/-! ## `trash.writeTemplate` writes before it validates -/

/-- C19: in `trash.writeTemplate` the write comes before validation.  Whenever
the call returns the validation error (a value of the data is not in the
output), whatever the writer, the sink has already received, in full, the
non-empty output of the first execution, so it is not as it was; whereas a run
of `template.WriteTemplate` that returns its missing-data error leaves the
sink as it was. -/
theorem writeTemplate_writes_before_validation (strictTemplateChecking : Bool)
    (range : FlatMap → List (String × Leaf))
    (parseFS : List String → Except Cause (Nat → Tmpl)) (w : Writer)
    (templatePaths : List String) (data : Value) (k : String)
    (h : (writeTemplate strictTemplateChecking range parseFS w templatePaths data).result
      = .err (.missingValue k)) :
    (∃ tmpl buf, parseFS templatePaths = .ok tmpl ∧ tmpl 0 data = .ok buf ∧ buf ≠ "" ∧
      (writeTemplate strictTemplateChecking range parseFS w templatePaths data).sink
        = w.received ++ buf ∧
      (writeTemplate strictTemplateChecking range parseFS w templatePaths data).sink
        ≠ w.received) ∧
    (∀ (assets : Assets) (key : String),
      (WriteTemplate true range assets w templatePaths data).result
        = .err (.missingKey key) →
      (WriteTemplate true range assets w templatePaths data).sink = w.received) := by
  constructor
  · unfold writeTemplate at h ⊢
    cases hp : parseFS templatePaths with
    | error cause => rw [hp] at h; simp at h
    | ok tmpl =>
      rw [hp] at h
      simp only at h ⊢
      cases he : tmpl 0 data with
      | error cause => rw [he] at h; simp at h
      | ok buf =>
        rw [he] at h
        simp only at h ⊢
        by_cases hb : buf.length = 0
        · simp [hb] at h
        · have hne : buf ≠ "" := by
            intro e
            apply hb
            rw [e]
            rfl
          simp only [hb, if_false] at h ⊢
          rcases hw : bufferWriteTo buf w with ⟨r, sink⟩
          rw [hw] at h
          cases r with
          | failed cause => simp at h
          | panic msg => simp at h
          | done =>
            have hsink := bufferWriteTo_done buf w sink hw
            refine ⟨tmpl, buf, rfl, he, hne, ?_, ?_⟩
            · simp only
              cases strictTemplateChecking <;> simp [hsink]
            · simp only
              cases strictTemplateChecking <;> simp [hsink, append_ne_self _ _ hne]
  · intro assets key hk
    unfold WriteTemplate at hk ⊢
    cases hp : assets.parseFS templatePaths with
    | error cause => rfl
    | ok tmpl =>
      rw [hp] at hk
      simp only at hk ⊢
      cases he : tmpl data with
      | error cause => rfl
      | ok buf =>
        rw [he] at hk
        simp only at hk ⊢
        by_cases hb : buf.length = 0
        · simp [hb]
        · simp only [hb, if_false, if_true] at hk ⊢
          cases hs : strictStep range data buf with
          | ok u =>
            rw [hs] at hk
            exact absurd hk (writeTo_ne_missingKey buf w key)
          | err e => rfl
          | panic msg => rfl

theorem writeTemplate_writes_before_validation_witness :
    writeTemplate true id (fun _ => .ok (fun _ _ => .ok "<h1>Hello, World!</h1>"))
        (Writer.holding "seen;") ["static/html/index.html"] yearRecord
      = ⟨.err (.missingValue "Year."), "seen;<h1>Hello, World!</h1>"⟩ ∧
    (writeTemplate true id (fun _ => .ok (fun _ _ => .ok "<h1>Hello, World!</h1>"))
        (Writer.holding "seen;") ["static/html/index.html"] yearRecord).sink ≠ "seen;" :=
  ⟨by decide,
   let ⟨_, _, _, _, _, _, hne⟩ :=
     (writeTemplate_writes_before_validation true id
       (fun _ => .ok (fun _ _ => .ok "<h1>Hello, World!</h1>"))
       (Writer.holding "seen;") ["static/html/index.html"] yearRecord "Year." (by decide)).1
   hne⟩

end Trash
